import Mathlib

/-!
# The wait queue of `ext/event/backend/backend.c`

A shallow embedding of the intrusive doubly linked run queue of the event
backend (`queue_push`, `queue_pop`, the suspend calls and
`Event_Backend_queue_flush`) together with the descriptor helpers.

Pointers to `struct Event_Backend_Queue` are addresses (`Nat`); a nullable
pointer is an `Option Nat` with `none` for `NULL`.  The memory holding the
entries is a total map from addresses to entry records.
-/

namespace EventBackend

/-- Ruby object handle (`VALUE`), a machine word. -/
abbrev VALUE := Nat

/-- The record `struct Event_Backend_Queue`: the two links, the flag word and
the fiber to resume. -/
structure Event_Backend_Queue where
  behind : Option Nat
  infront : Option Nat
  flags : Nat
  fiber : VALUE
deriving DecidableEq

/-- The queue fields of `struct Event_Backend`: `ready` is the front of the
queue (served next), `waiting` is the back (appended last). -/
structure Event_Backend where
  ready : Option Nat
  waiting : Option Nat
deriving DecidableEq

/-- The backend record together with the memory its entry pointers refer to. -/
structure Memory where
  backend : Event_Backend
  entry : Nat → Event_Backend_Queue

/-- The store `p->behind = v`. -/
def Memory.set_behind (m : Memory) (p : Nat) (v : Option Nat) : Memory :=
  { m with entry := fun a => if a = p then { m.entry p with behind := v } else m.entry a }

/-- The store `p->infront = v`. -/
def Memory.set_infront (m : Memory) (p : Nat) (v : Option Nat) : Memory :=
  { m with entry := fun a => if a = p then { m.entry p with infront := v } else m.entry a }

/-- The store `backend->ready = v`. -/
def Memory.set_ready (m : Memory) (v : Option Nat) : Memory :=
  { m with backend := { m.backend with ready := v } }

/-- The store `backend->waiting = v`. -/
def Memory.set_waiting (m : Memory) (v : Option Nat) : Memory :=
  { m with backend := { m.backend with waiting := v } }

/-- Writing a whole record at address `p` (a struct initialiser). -/
def Memory.store (m : Memory) (p : Nat) (r : Event_Backend_Queue) : Memory :=
  { m with entry := fun a => if a = p then r else m.entry a }

/-- `static void queue_pop(backend, waiting)`: the two conditionals of the
source, executed one after the other on the memory. -/
def queue_pop (m : Memory) (waiting : Nat) : Memory :=
  let m1 :=
    match (m.entry waiting).behind with
    | some b => m.set_infront b (m.entry waiting).infront
    | none => m.set_waiting (m.entry waiting).infront
  match (m1.entry waiting).infront with
  | some f => m1.set_behind f (m1.entry waiting).behind
  | none => m1.set_ready (m1.entry waiting).behind

/-- `static void queue_push(backend, waiting)`. -/
def queue_push (m : Memory) (waiting : Nat) : Memory :=
  let m1 :=
    match m.backend.waiting with
    | some w =>
      let m0 := m.set_behind w (some waiting)
      m0.set_infront waiting m0.backend.waiting
    | none => m.set_ready (some waiting)
  m1.set_waiting (some waiting)

/-- A memory with an empty queue: both `ready` and `waiting` are `NULL`. -/
def Memory.empty : Memory :=
  { backend := { ready := none, waiting := none },
    entry := fun _ => { behind := none, infront := none, flags := 0, fiber := 0 } }

/-- Following `behind` links from a pointer, at most `fuel` steps: the
front-to-back traversal of the queue when started at `backend->ready`. -/
def walk (m : Memory) : Nat → Option Nat → List Nat
  | 0, _ => []
  | _ + 1, none => []
  | fuel + 1, some a => a :: walk m fuel (m.entry a).behind

/-- The front-to-back traversal of the queue, bounded by `fuel` entries. -/
def traversal (m : Memory) (fuel : Nat) : List Nat :=
  walk m fuel m.backend.ready

/-- The memory `m` holds a well-formed queue whose members, front to back, are
the list `L`: no entry occurs twice, `ready` is the first and `waiting` the
last member, every member's `behind` link is the next member (null for the
last) and every member's `infront` link is the previous member (null for the
first). -/
structure Represents (m : Memory) (L : List Nat) : Prop where
  nodup : L.Nodup
  ready : m.backend.ready = L.head?
  waiting : m.backend.waiting = L.getLast?
  behind : ∀ i a, L[i]? = some a → (m.entry a).behind = L[i + 1]?
  infront : ∀ i a, L[i]? = some a →
    (m.entry a).infront = if i = 0 then none else L[i - 1]?

/-- An entry is fresh when both of its links are null. -/
def Fresh (m : Memory) (e : Nat) : Prop :=
  (m.entry e).behind = none ∧ (m.entry e).infront = none

/-- The well-formedness predicate in the words of its statement, for a queue
with member list `L`: the front is null iff the back is null; for all members
`a`, `b`, `a.behind == b` iff `b.infront == a`; following `behind` links from
the front visits every member exactly once (the walk, given room for one more
step than there are members, stops by itself and yields `L`, and `L` has no
repetition) and ends at the back. -/
def StatedInvariant (m : Memory) (L : List Nat) : Prop :=
  (m.backend.ready = none ↔ m.backend.waiting = none) ∧
  (∀ a ∈ L, ∀ b ∈ L, ((m.entry a).behind = some b ↔ (m.entry b).infront = some a)) ∧
  L.Nodup ∧ traversal m (L.length + 1) = L ∧ m.backend.waiting = L.getLast?

/-- The same predicate with the link condition read over all entries of the
memory instead of the members only. -/
def StatedInvariantAll (m : Memory) (L : List Nat) : Prop :=
  (m.backend.ready = none ↔ m.backend.waiting = none) ∧
  (∀ a b : Nat, ((m.entry a).behind = some b ↔ (m.entry b).infront = some a)) ∧
  L.Nodup ∧ traversal m (L.length + 1) = L ∧ m.backend.waiting = L.getLast?

/-- The stated predicate over the members, together with: the `infront` link of
the front member is null. -/
def WellFormed (m : Memory) (L : List Nat) : Prop :=
  StatedInvariant m L ∧ ∀ a, L.head? = some a → (m.entry a).infront = none

/-! ## The host: fibers and control transfer

The Ruby primitives the backend calls (`transfer`, `raise`, `alive?`) are
external.  While the caller of a control transfer is suspended, other fibers
run; the only way they can touch the queue is by running `queue_push` on an
entry of their own or `queue_pop` on an entry.  A host therefore answers each
control transfer with the list of queue operations performed before control
comes back, and with the value or the exception that comes back. -/

/-- Modelled from the spec: `backend.h`, which declares the entry flags, is not
among the sources.  The flag of a BLOCKING entry, one that belongs to a fiber
suspended in `Event_Backend_wait_and_transfer` or `Event_Backend_wait_and_raise`. -/
def EVENT_BACKEND_QUEUE_FIBER : Nat := 1

/-- Modelled from the spec: `backend.h` is not among the sources.  The flag of
a DETACHED entry, one allocated by `Event_Backend_queue_push`. -/
def EVENT_BACKEND_QUEUE_INTERNAL : Nat := 2

/-- The Ruby constant `Qnil`. -/
def Qnil : VALUE := 8

/-- What travels up the C stack instead of a return value: the arity error of
`rb_check_arity`, or an exception object raised into the running fiber. -/
inductive Error where
  | arity (argc : Nat) (required : Nat)
  | exception (e : VALUE)
deriving DecidableEq

/-- One queue operation performed by another fiber while the caller of a
control transfer is suspended: `push e flags fiber` initialises the entry at
address `e` (null links, the given flags and fiber) and runs `queue_push` on
it; `unlink e` runs `queue_pop` on `e`. -/
inductive Action where
  | push (e : Nat) (flags : Nat) (fiber : VALUE)
  | unlink (e : Nat)
deriving DecidableEq

/-- The effect of one action on memory. -/
def Action.run (m : Memory) : Action → Memory
  | .push e flags fiber =>
    queue_push (m.store e { behind := none, infront := none, flags := flags, fiber := fiber }) e
  | .unlink e => queue_pop m e

/-- The effect of one action on the list of members of the queue. -/
def Action.members (L : List Nat) : Action → List Nat
  | .push e _ _ => L ++ [e]
  | .unlink e => L.erase e

/-- The queue after pushing the fresh entries 1 and 2 onto the empty queue. -/
def two_entries : Memory :=
  queue_push (queue_push Memory.empty 1) 2

/-- A memory whose queue has the single member 1 (front and back), where the
`infront` link of entry 1 is not null: it points at entry 2, which is not a
member and whose `behind` link points back at entry 1. -/
def dangling_front : Memory :=
  { backend := { ready := some 1, waiting := some 1 },
    entry := fun a =>
      if a = 1 then { behind := none, infront := some 2, flags := 0, fiber := 0 }
      else if a = 2 then { behind := some 1, infront := none, flags := 0, fiber := 0 }
      else { behind := none, infront := none, flags := 0, fiber := 0 } }

/-- A sequence of queue operations is admissible on a queue with members `L`
when every push is of an entry that is not a member at that moment and every
unlink is of an entry that is a member at that moment, and none of them
concerns an entry of `keep` (the entries owned by suspended callers that only
these callers unlink). -/
def Admissible (keep : List Nat) : List Nat → List Action → Prop
  | _, [] => True
  | L, .push e flags fiber :: rest =>
    e ∉ L ∧ e ∉ keep ∧ Admissible keep (Action.members L (.push e flags fiber)) rest
  | L, .unlink e :: rest =>
    e ∈ L ∧ e ∉ keep ∧ Admissible keep (Action.members L (.unlink e)) rest

/-- What happens during one control transfer, seen from the suspended caller:
the queue operations of the other fibers, then the value handed back or the
exception raised into the caller. -/
structure Response where
  actions : List Action
  result : Except VALUE VALUE

/-- The rest of the program.  `respond k` is what happens during the control
transfer number `k` (counted from the start of the run), `alive k f` is the
answer of `f.alive?` after `k` control transfers. -/
structure Host where
  respond : Nat → Response
  alive : Nat → VALUE → Bool

/-- A control transfer as recorded in the log. -/
inductive Transfer where
  | transfer (fiber : VALUE) (argv : List VALUE)
  | raise (fiber : VALUE) (argv : List VALUE)
deriving DecidableEq

/-- The state of a run: the memory, the number of control transfers made so
far, the log of control transfers, and the log of entries handed to the
dispatcher by `Event_Backend_queue_flush`. -/
structure World where
  memory : Memory
  clock : Nat
  transfers : List Transfer
  dispatched : List Nat

/-- The caller is suspended, the host's response for this transfer happens,
and control comes back with a value or an exception. -/
def Host.switch (h : Host) (w : World) (t : Transfer) : Except Error VALUE × World :=
  let r := h.respond w.clock
  (match r.result with
   | .ok v => .ok v
   | .error e => .error (.exception e),
   { memory := r.actions.foldl Action.run w.memory,
     clock := w.clock + 1,
     transfers := w.transfers ++ [t],
     dispatched := w.dispatched })

/-- `Event_Backend_fiber_transfer(fiber, argc, argv)`: `fiber.transfer(*argv)`. -/
def Event_Backend_fiber_transfer (h : Host) (w : World) (fiber : VALUE) (argv : List VALUE) :
    Except Error VALUE × World :=
  h.switch w (.transfer fiber argv)

/-- `Event_Backend_fiber_raise(fiber, argc, argv)`: `fiber.raise(*argv)`. -/
def Event_Backend_fiber_raise (h : Host) (w : World) (fiber : VALUE) (argv : List VALUE) :
    Except Error VALUE × World :=
  h.switch w (.raise fiber argv)

/-- `rb_ensure(b_proc, data1, e_proc, data2)`: run the body, then run the
ensure step whether the body returned or raised, then return or re-raise what
the body produced. -/
def rb_ensure (body : World → Except Error VALUE × World) (ensure : World → VALUE × World)
    (w : World) : Except Error VALUE × World :=
  let r := body w
  (r.1, (ensure r.2).2)

/-- The record `struct wait_and_transfer_arguments`; `argc` is the length of
`argv`, the backend is the one of the memory, `waiting` is the address of the
caller's entry. -/
structure wait_and_transfer_arguments where
  argv : List VALUE
  waiting : Nat

/-- `static VALUE wait_and_transfer(VALUE _arguments)`: transfer into
`argv[0]` with the remaining arguments. -/
def wait_and_transfer (h : Host) (arguments : wait_and_transfer_arguments) (w : World) :
    Except Error VALUE × World :=
  let fiber := arguments.argv.headD Qnil
  let argv := arguments.argv.tail
  Event_Backend_fiber_transfer h w fiber argv

/-- `static VALUE wait_and_raise(VALUE _arguments)`: raise into `argv[0]` with
the remaining arguments. -/
def wait_and_raise (h : Host) (arguments : wait_and_transfer_arguments) (w : World) :
    Except Error VALUE × World :=
  let fiber := arguments.argv.headD Qnil
  let argv := arguments.argv.tail
  Event_Backend_fiber_raise h w fiber argv

/-- `static VALUE wait_and_transfer_ensure(VALUE _arguments)`: unlink the
caller's entry. -/
def wait_and_transfer_ensure (arguments : wait_and_transfer_arguments) (w : World) :
    VALUE × World :=
  (Qnil, { w with memory := queue_pop w.memory arguments.waiting })

/-- Ruby's constant `UNLIMITED_ARGUMENTS`. -/
def UNLIMITED_ARGUMENTS : Int := -1

/-- Ruby's arity check as the source calls it, with two arguments.  Ruby's
`rb_check_arity(argc, min, max)` raises the arity error when `argc < min`, or
when `argc` exceeds a `max` other than `UNLIMITED_ARGUMENTS`.  The two
arguments the source writes stand in the places of `argc` and `min`, and no
maximum is given.  The `argc` of the running call is not among the arguments,
so the outcome is the same for every call. -/
def rb_check_arity (given required : Int) : Option Error :=
  if given < required then some (.arity given.toNat required.toNat) else none

/-- `Event_Backend_wait_and_transfer(backend, argc, argv)`.  `self` is the
address of the local `waiting` on the caller's stack and `current` the value
of `rb_fiber_current()`.  The first statement is
`rb_check_arity(1, UNLIMITED_ARGUMENTS)`. -/
def Event_Backend_wait_and_transfer (h : Host) (w : World) (self : Nat) (current : VALUE)
    (argv : List VALUE) : Except Error VALUE × World :=
  match rb_check_arity 1 UNLIMITED_ARGUMENTS with
  | some error => (.error error, w)
  | none =>
    let m := w.memory.store self
      { behind := none, infront := none, flags := EVENT_BACKEND_QUEUE_FIBER, fiber := current }
    let m := queue_push m self
    let arguments : wait_and_transfer_arguments := { argv := argv, waiting := self }
    rb_ensure (wait_and_transfer h arguments) (wait_and_transfer_ensure arguments)
      { w with memory := m }

/-- `Event_Backend_wait_and_raise(backend, argc, argv)`.  The first statement
is `rb_check_arity(2, UNLIMITED_ARGUMENTS)`. -/
def Event_Backend_wait_and_raise (h : Host) (w : World) (self : Nat) (current : VALUE)
    (argv : List VALUE) : Except Error VALUE × World :=
  match rb_check_arity 2 UNLIMITED_ARGUMENTS with
  | some error => (.error error, w)
  | none =>
    let m := w.memory.store self
      { behind := none, infront := none, flags := EVENT_BACKEND_QUEUE_FIBER, fiber := current }
    let m := queue_push m self
    let arguments : wait_and_transfer_arguments := { argv := argv, waiting := self }
    rb_ensure (wait_and_raise h arguments) (wait_and_transfer_ensure arguments)
      { w with memory := m }

/-- `Event_Backend_queue_push(backend, fiber)`; `waiting` is the address
returned by `malloc`. -/
def Event_Backend_queue_push (w : World) (waiting : Nat) (fiber : VALUE) : World :=
  let m := w.memory.store waiting
    { behind := none, infront := none, flags := EVENT_BACKEND_QUEUE_INTERNAL, fiber := fiber }
  { w with memory := queue_push m waiting }

/-- `Event_Backend_queue_pop(backend, ready)`: dispatch of one entry.  An
exception coming back from the transfer propagates to the caller.  The
`free(ready)` of the second branch leaves the memory of the model as it is:
nothing reads the entry afterwards. -/
def Event_Backend_queue_pop (h : Host) (w : World) (ready : Nat) : Except Error Unit × World :=
  if (w.memory.entry ready).flags &&& EVENT_BACKEND_QUEUE_FIBER ≠ 0 then
    let r := Event_Backend_fiber_transfer h w (w.memory.entry ready).fiber []
    (r.1.map (fun _ => ()), r.2)
  else
    let fiber := (w.memory.entry ready).fiber
    let w := { w with memory := queue_pop w.memory ready }
    if h.alive w.clock fiber then
      let r := Event_Backend_fiber_transfer h w fiber []
      (r.1.map (fun _ => ()), r.2)
    else
      (.ok (), w)

/-- The loop of `Event_Backend_queue_flush`, with `waiting` the tail pointer
read before the loop and `count` the running count.  `fuel` bounds the number
of iterations; `none` means the bound was reached with the loop still
running.  Each entry taken from the front is appended to the log
`dispatched`. -/
def flush_loop (h : Host) (waiting : Option Nat) : Nat → Nat → World →
    Option (Except Error Nat × World)
  | 0, _, _ => none
  | fuel + 1, count, w =>
    match w.memory.backend.ready with
    | none => some (.ok count, w)
    | some ready =>
      let count := count + 1
      let r := Event_Backend_queue_pop h { w with dispatched := w.dispatched ++ [ready] } ready
      match r.1 with
      | .error e => some (.error e, r.2)
      | .ok _ =>
        if some ready = waiting then some (.ok count, r.2)
        else flush_loop h waiting fuel count r.2

/-- `Event_Backend_queue_flush(backend)`.  The count is a natural number: the
`int` of the source overflows only past `2^31 - 1` dispatched entries. -/
def Event_Backend_queue_flush (h : Host) (fuel : Nat) (w : World) :
    Option (Except Error Nat × World) :=
  flush_loop h w.memory.backend.waiting fuel 0 w

/-- The actions that push the entries `ps` (address, flags, fiber), in order. -/
def pushes (ps : List (Nat × Nat × VALUE)) : List Action :=
  ps.map fun p => .push p.1 p.2.1 p.2.2

/-- The woken tasks leave the entries still to be dispatched alone.  `R` lists
the entries present at the start of the flush that are not yet dispatched, `Q`
the members behind them, `c` is the clock, and the flags and fibers of the
entries of `R` are those recorded in `m`.  For each entry of `R` in turn: the
task woken for a BLOCKING entry first unlinks that entry; after that (and for
a DETACHED entry whose fiber is alive) the other fibers perform admissible
operations that do not concern the rest of `R`; control comes back normally.
A DETACHED entry whose fiber is dead wakes nobody.  `P` is the list of
members when the last entry of `R` has been dispatched. -/
def Drain (h : Host) (m : Memory) : Nat → List Nat → List Nat → List Nat → Prop
  | _, [], Q, P => P = Q
  | c, e :: R, Q, P =>
    if (m.entry e).flags &&& EVENT_BACKEND_QUEUE_FIBER ≠ 0 then
      ∃ v rest, h.respond c = { actions := .unlink e :: rest, result := .ok v } ∧
        Admissible R (R ++ Q) rest ∧ Drain h m (c + 1) R (rest.foldl Action.members Q) P
    else if h.alive c (m.entry e).fiber = true then
      ∃ v rest, h.respond c = { actions := rest, result := .ok v } ∧
        Admissible R (R ++ Q) rest ∧ Drain h m (c + 1) R (rest.foldl Action.members Q) P
    else Drain h m c R Q P

/-- The woken tasks do nothing to the queue except push new entries, and, for
a BLOCKING entry, unlink their own entry first.  As `Drain`, with the
operations of the other fibers being the pushes of entries `ps` that are not
members when pushed; `P` then is `Q` followed by all entries pushed, in push
order. -/
def PushOnly (h : Host) (m : Memory) : Nat → List Nat → List Nat → List Nat → Prop
  | _, [], Q, P => P = Q
  | c, e :: R, Q, P =>
    if (m.entry e).flags &&& EVENT_BACKEND_QUEUE_FIBER ≠ 0 then
      ∃ v ps, h.respond c = { actions := .unlink e :: pushes ps, result := .ok v } ∧
        Admissible R (R ++ Q) (pushes ps) ∧
        PushOnly h m (c + 1) R (Q ++ ps.map (fun p => p.1)) P
    else if h.alive c (m.entry e).fiber = true then
      ∃ v ps, h.respond c = { actions := pushes ps, result := .ok v } ∧
        Admissible R (R ++ Q) (pushes ps) ∧
        PushOnly h m (c + 1) R (Q ++ ps.map (fun p => p.1)) P
    else PushOnly h m c R Q P

/-- No woken task touches the queue beyond its own entry: the task woken for a
BLOCKING entry unlinks that entry, nothing else happens to the queue, and
control comes back normally. -/
def Quiet (h : Host) (m : Memory) : Nat → List Nat → Prop
  | _, [] => True
  | c, e :: R =>
    if (m.entry e).flags &&& EVENT_BACKEND_QUEUE_FIBER ≠ 0 then
      (∃ v, h.respond c = { actions := [.unlink e], result := .ok v }) ∧ Quiet h m (c + 1) R
    else if h.alive c (m.entry e).fiber = true then
      (∃ v, h.respond c = { actions := [], result := .ok v }) ∧ Quiet h m (c + 1) R
    else Quiet h m c R

/-- The start of a run on a given memory: no control transfer made yet. -/
def World.start (m : Memory) : World :=
  { memory := m, clock := 0, transfers := [], dispatched := [] }

/-- A host in which every control transfer comes straight back with the value
`v`, nothing touches the queue, and every fiber is alive. -/
def Host.returning (v : VALUE) : Host :=
  { respond := fun _ => { actions := [], result := .ok v },
    alive := fun _ _ => true }

/-- A host in which every control transfer comes back with the exception `e`
raised into the caller, nothing touches the queue, and every fiber is alive. -/
def Host.raising (e : VALUE) : Host :=
  { respond := fun _ => { actions := [], result := .error e },
    alive := fun _ _ => true }

/-- A memory with an empty queue and two fresh entries: entry 1 is BLOCKING
(fiber 11), entry 2 is DETACHED (fiber 12). -/
def Memory.two_fresh : Memory :=
  (Memory.empty.store 1
    { behind := none, infront := none, flags := EVENT_BACKEND_QUEUE_FIBER, fiber := 11 }).store 2
    { behind := none, infront := none, flags := EVENT_BACKEND_QUEUE_INTERNAL, fiber := 12 }

/-- A host for `Memory.two_fresh`: the task woken by the first control
transfer unlinks entry 1 and transfers back; fiber 12 is dead. -/
def Host.quiet : Host :=
  { respond := fun k =>
      if k = 0 then { actions := [.unlink 1], result := .ok Qnil }
      else { actions := [], result := .ok Qnil },
    alive := fun _ f => decide (f ≠ 12) }

/-- The world after `Event_Backend_queue_push` of fiber 11 (entry 1) and of
fiber 12 (entry 2) on the empty queue: A and B of the bounded-drain example. -/
def World.two_detached : World :=
  Event_Backend_queue_push (Event_Backend_queue_push (World.start Memory.empty) 1 11) 2 12

/-- The host of the bounded-drain example: during the first control transfer
(the dispatch of A) the DETACHED entry 3 for fiber 13 is pushed (C); every
other transfer comes straight back; all fibers are alive. -/
def Host.pushing : Host :=
  { respond := fun k =>
      if k = 0 then
        { actions := [.push 3 EVENT_BACKEND_QUEUE_INTERNAL 13], result := .ok Qnil }
      else { actions := [], result := .ok Qnil },
    alive := fun _ _ => true }

/-- The world in which fibers 11 and 12 are suspended in
`Event_Backend_wait_and_transfer` with the BLOCKING entries 1 and 2. -/
def World.two_blocking : World :=
  World.start ([Action.push 1 EVENT_BACKEND_QUEUE_FIBER 11,
    Action.push 2 EVENT_BACKEND_QUEUE_FIBER 12].foldl Action.run Memory.empty)

/-- A host for `World.two_blocking`: fiber 11, woken by the first control
transfer, unlinks its entry 1 and resumes fiber 12 directly; fiber 12 unlinks
its entry 2; the DETACHED entries 3 and 4 (fibers 13 and 14) are pushed, and
control goes back to the dispatcher.  Every later transfer comes straight
back. -/
def Host.resuming : Host :=
  { respond := fun k =>
      if k = 0 then
        { actions := [.unlink 1, .unlink 2, .push 3 EVENT_BACKEND_QUEUE_INTERNAL 13,
            .push 4 EVENT_BACKEND_QUEUE_INTERNAL 14],
          result := .ok Qnil }
      else { actions := [], result := .ok Qnil },
    alive := fun _ _ => true }

/-! ## Descriptor flags

`fcntl` belongs to the operating system.  The status flags of an open
descriptor are one `int` word per descriptor; `F_GETFL` reads the word and
`F_SETFL` stores the word it is given.  `O_NONBLOCK` comes from `<fcntl.h>`
and is a parameter.  The operators `&`, `|` and `~` of C on `int` are
`Int.land`, `Int.lor` and `Int.lnot` (two's complement). -/

/-- The status flag word of every descriptor. -/
abbrev Descriptors := Int → Int

/-- `fcntl(file_descriptor, F_GETFL, 0)` on an open descriptor. -/
def fcntl_GETFL (d : Descriptors) (file_descriptor : Int) : Int :=
  d file_descriptor

/-- `fcntl(file_descriptor, F_SETFL, flags)` on an open descriptor. -/
def fcntl_SETFL (d : Descriptors) (file_descriptor : Int) (flags : Int) : Descriptors :=
  fun x => if x = file_descriptor then flags else d x

/-- `int Event_Backend_nonblock_set(int file_descriptor)`: the returned flags
and the descriptors afterwards. -/
def Event_Backend_nonblock_set (O_NONBLOCK : Int) (d : Descriptors) (file_descriptor : Int) :
    Int × Descriptors :=
  let flags := fcntl_GETFL d file_descriptor
  if Int.land flags O_NONBLOCK = 0 then
    (flags, fcntl_SETFL d file_descriptor (Int.lor flags O_NONBLOCK))
  else
    (flags, d)

/-- `void Event_Backend_nonblock_restore(int file_descriptor, int flags)`. -/
def Event_Backend_nonblock_restore (O_NONBLOCK : Int) (d : Descriptors) (file_descriptor : Int)
    (flags : Int) : Descriptors :=
  if Int.land flags O_NONBLOCK = 0 then
    fcntl_SETFL d file_descriptor (Int.land flags (Int.lnot flags))
  else
    d

/-- A host in which every control transfer comes straight back with `Qnil`,
nothing touches the queue, and every fiber is dead. -/
def Host.dead : Host :=
  { respond := fun _ => { actions := [], result := .ok Qnil },
    alive := fun _ _ => false }

/-- The queue after pushing the fresh entries 1, 2 and 3 onto the empty queue. -/
def three_entries : Memory :=
  queue_push (queue_push (queue_push Memory.empty 1) 2) 3

/-- A host for `World.two_blocking` in which the boundary is unlinked as in
`Host.resuming` and every woken task pushes one more DETACHED entry before
control goes back to the dispatcher: the first response unlinks 1 and 2 and
pushes entry 3, the response number `k` pushes entry `k + 3`. -/
def Host.relentless : Host :=
  { respond := fun k =>
      if k = 0 then
        { actions := [.unlink 1, .unlink 2, .push 3 EVENT_BACKEND_QUEUE_INTERNAL 13],
          result := .ok Qnil }
      else
        { actions := [.push (k + 3) EVENT_BACKEND_QUEUE_INTERNAL 13], result := .ok Qnil },
    alive := fun _ _ => true }

/-! ## Elapsed time

`struct timespec` belongs to `<time.h>`: two signed integer fields.  They are
integers without a bound here; for fields `tv_nsec` in `[0, 1000000000)` the
arithmetic on `tv_nsec` stays within 32 bits, and the subtraction of `tv_sec`
leaves `time_t` only for timestamps further apart than its range. -/

/-- The record `struct timespec`. -/
structure timespec where
  tv_sec : Int
  tv_nsec : Int
deriving DecidableEq

/-- `Event_Backend_elapsed_time(start, stop, duration)`: the value written to
`*duration`. -/
def Event_Backend_elapsed_time (start stop : timespec) : timespec :=
  if stop.tv_nsec - start.tv_nsec < 0 then
    { tv_sec := stop.tv_sec - start.tv_sec - 1,
      tv_nsec := stop.tv_nsec - start.tv_nsec + 1000000000 }
  else
    { tv_sec := stop.tv_sec - start.tv_sec,
      tv_nsec := stop.tv_nsec - start.tv_nsec }

/-- Descriptors whose flag word is 3073, which on Linux is
`O_WRONLY | O_APPEND | O_NONBLOCK` (01 | 02000 | 04000): the state of a
descriptor opened for appending after `Event_Backend_nonblock_set`. -/
def Descriptors.appending : Descriptors :=
  fun _ => 3073

/-- The queue after: push A (entry 1), unlink A, push B (entry 2). -/
def misuse_queue : Memory :=
  queue_push (queue_pop (queue_push Memory.empty 1) 1) 2

/-! ## The arity check of the suspend calls -/

@[simp] theorem rb_check_arity_one : rb_check_arity 1 UNLIMITED_ARGUMENTS = none := by decide

@[simp] theorem rb_check_arity_two : rb_check_arity 2 UNLIMITED_ARGUMENTS = none := by decide

/-! ## Reading memory after a store -/

section stores
variable (m : Memory) (p a : Nat) (v : Option Nat) (r : Event_Backend_Queue)

@[simp] theorem set_behind_behind :
    ((m.set_behind p v).entry a).behind = if a = p then v else (m.entry a).behind := by
  unfold Memory.set_behind; by_cases h : a = p <;> simp [h]
@[simp] theorem set_behind_infront :
    ((m.set_behind p v).entry a).infront = (m.entry a).infront := by
  unfold Memory.set_behind; by_cases h : a = p <;> simp [h]
@[simp] theorem set_behind_flags :
    ((m.set_behind p v).entry a).flags = (m.entry a).flags := by
  unfold Memory.set_behind; by_cases h : a = p <;> simp [h]
@[simp] theorem set_behind_fiber :
    ((m.set_behind p v).entry a).fiber = (m.entry a).fiber := by
  unfold Memory.set_behind; by_cases h : a = p <;> simp [h]
@[simp] theorem set_behind_backend : (m.set_behind p v).backend = m.backend := rfl

@[simp] theorem set_infront_infront :
    ((m.set_infront p v).entry a).infront = if a = p then v else (m.entry a).infront := by
  unfold Memory.set_infront; by_cases h : a = p <;> simp [h]
@[simp] theorem set_infront_behind :
    ((m.set_infront p v).entry a).behind = (m.entry a).behind := by
  unfold Memory.set_infront; by_cases h : a = p <;> simp [h]
@[simp] theorem set_infront_flags :
    ((m.set_infront p v).entry a).flags = (m.entry a).flags := by
  unfold Memory.set_infront; by_cases h : a = p <;> simp [h]
@[simp] theorem set_infront_fiber :
    ((m.set_infront p v).entry a).fiber = (m.entry a).fiber := by
  unfold Memory.set_infront; by_cases h : a = p <;> simp [h]
@[simp] theorem set_infront_backend : (m.set_infront p v).backend = m.backend := rfl

@[simp] theorem set_ready_entry : (m.set_ready v).entry = m.entry := rfl
@[simp] theorem set_ready_ready : (m.set_ready v).backend.ready = v := rfl
@[simp] theorem set_ready_waiting : (m.set_ready v).backend.waiting = m.backend.waiting := rfl
@[simp] theorem set_waiting_entry : (m.set_waiting v).entry = m.entry := rfl
@[simp] theorem set_waiting_waiting : (m.set_waiting v).backend.waiting = v := rfl
@[simp] theorem set_waiting_ready : (m.set_waiting v).backend.ready = m.backend.ready := rfl

@[simp] theorem store_backend : (m.store p r).backend = m.backend := rfl
@[simp] theorem store_entry : (m.store p r).entry a = if a = p then r else m.entry a := rfl

end stores

/-! ## The two primitives, field by field -/

theorem queue_pop_behind (m : Memory) (e a : Nat) :
    ((queue_pop m e).entry a).behind =
      if (m.entry e).infront = some a then (m.entry e).behind else (m.entry a).behind := by
  unfold queue_pop
  cases hb : (m.entry e).behind <;> cases hf : (m.entry e).infront <;> simp [hb, hf] <;>
    split_ifs <;> first | rfl | omega

theorem queue_pop_infront (m : Memory) (e a : Nat) :
    ((queue_pop m e).entry a).infront =
      if (m.entry e).behind = some a then (m.entry e).infront else (m.entry a).infront := by
  unfold queue_pop
  cases hb : (m.entry e).behind <;> cases hf : (m.entry e).infront <;> simp [hb, hf] <;>
    split_ifs <;> first | rfl | omega

theorem queue_pop_ready (m : Memory) (e : Nat) :
    (queue_pop m e).backend.ready =
      if (m.entry e).infront = none then (m.entry e).behind else m.backend.ready := by
  unfold queue_pop
  cases hb : (m.entry e).behind <;> cases hf : (m.entry e).infront <;> simp [hb, hf]

theorem queue_pop_waiting (m : Memory) (e : Nat) :
    (queue_pop m e).backend.waiting =
      if (m.entry e).behind = none then (m.entry e).infront else m.backend.waiting := by
  unfold queue_pop
  cases hb : (m.entry e).behind <;> cases hf : (m.entry e).infront <;> simp [hb, hf]

theorem queue_pop_flags (m : Memory) (e a : Nat) :
    ((queue_pop m e).entry a).flags = (m.entry a).flags := by
  unfold queue_pop
  cases hb : (m.entry e).behind <;> cases hf : (m.entry e).infront <;> simp [hb, hf]

theorem queue_pop_fiber (m : Memory) (e a : Nat) :
    ((queue_pop m e).entry a).fiber = (m.entry a).fiber := by
  unfold queue_pop
  cases hb : (m.entry e).behind <;> cases hf : (m.entry e).infront <;> simp [hb, hf]

theorem queue_push_waiting (m : Memory) (e : Nat) :
    (queue_push m e).backend.waiting = some e := by
  unfold queue_push
  cases hw : m.backend.waiting <;> simp

theorem queue_push_ready (m : Memory) (e : Nat) :
    (queue_push m e).backend.ready =
      if m.backend.waiting = none then some e else m.backend.ready := by
  unfold queue_push
  cases hw : m.backend.waiting <;> simp

theorem queue_push_behind (m : Memory) (e a : Nat) :
    ((queue_push m e).entry a).behind =
      if m.backend.waiting = some a then some e else (m.entry a).behind := by
  unfold queue_push
  cases hw : m.backend.waiting
  · simp [hw]
  · simp [hw]; split_ifs <;> first | rfl | omega

theorem queue_push_infront (m : Memory) (e a : Nat) :
    ((queue_push m e).entry a).infront =
      if a = e ∧ m.backend.waiting ≠ none then m.backend.waiting else (m.entry a).infront := by
  unfold queue_push
  cases hw : m.backend.waiting <;> simp [hw]

theorem queue_push_flags (m : Memory) (e a : Nat) :
    ((queue_push m e).entry a).flags = (m.entry a).flags := by
  unfold queue_push
  cases hw : m.backend.waiting <;> simp [hw]

theorem queue_push_fiber (m : Memory) (e a : Nat) :
    ((queue_push m e).entry a).fiber = (m.entry a).fiber := by
  unfold queue_push
  cases hw : m.backend.waiting <;> simp [hw]

/-! ## Well-formed queues -/

theorem represents_empty : Represents Memory.empty [] where
  nodup := List.nodup_nil
  ready := rfl
  waiting := rfl
  behind := by intro i a h; simp at h
  infront := by intro i a h; simp at h

theorem Represents.index_unique {m : Memory} {L : List Nat} (h : Represents m L)
    {i j a : Nat} (hi : L[i]? = some a) (hj : L[j]? = some a) : i = j := by
  have hlt : i < L.length := (List.getElem?_eq_some.mp hi).1
  exact List.getElem?_inj hlt h.nodup (hi.trans hj.symm)

theorem Represents.ready_eq {m : Memory} {L : List Nat} (h : Represents m L) :
    m.backend.ready = L[0]? := by
  rw [h.ready, List.head?_eq_getElem?]

theorem Represents.waiting_eq {m : Memory} {L : List Nat} (h : Represents m L) :
    m.backend.waiting = L[L.length - 1]? := by
  rw [h.waiting, List.getLast?_eq_getElem?]

/-- Appending a fresh entry that is not a member: the result of `queue_push`
is the well-formed queue with the entry added at the back. -/
theorem queue_push_represents {m : Memory} {L : List Nat} {e : Nat}
    (h : Represents m L) (hne : e ∉ L) (hfresh : Fresh m e) :
    Represents (queue_push m e) (L ++ [e]) := by
  have hw := h.waiting_eq
  have hlen : (L ++ [e]).length = L.length + 1 := by simp
  have hget : ∀ i : Nat, (L ++ [e])[i]? =
      if i < L.length then L[i]? else if i = L.length then some e else none := by
    intro i
    rw [List.getElem?_append]
    split_ifs with h1 h2
    · rfl
    · subst h2; simp
    · rw [List.getElem?_eq_none]; simp; omega
  have hmem : ∀ (i a : Nat), L[i]? = some a → a ≠ e := by
    intro i a hi hae
    exact hne (hae ▸ List.mem_iff_getElem?.mpr ⟨i, hi⟩)
  refine ⟨?_, ?_, ?_, ?_, ?_⟩
  · exact List.Nodup.append h.nodup (List.nodup_singleton e) (by simpa using hne)
  · rw [queue_push_ready, List.head?_eq_getElem?, hget, hw, h.ready_eq]
    rcases Nat.eq_zero_or_pos L.length with h0 | h0
    · have : L = [] := List.length_eq_zero.mp h0
      subst this; simp
    · have : L[L.length - 1]? ≠ none := by
        rw [Ne, List.getElem?_eq_none_iff]; omega
      simp [this, h0]
  · rw [queue_push_waiting, List.getLast?_eq_getElem?, hlen, hget]; simp
  · intro i a hi
    rw [queue_push_behind, hw, hget]
    rw [hget] at hi
    split_ifs at hi with h1 h2
    · by_cases hlast : i = L.length - 1
      · subst hlast
        have h3 : ¬ (L.length - 1 + 1 < L.length) := by omega
        have h4 : L.length - 1 + 1 = L.length := by omega
        simp [hi, h3, h4]
      · have h3 : L[L.length - 1]? ≠ some a := fun hc => hlast (h.index_unique hi hc)
        have h4 : i + 1 < L.length := by omega
        simp [h3, h4, h.behind i a hi]
    · have hae : a = e := by simpa using hi.symm
      subst hae
      have h3 : L[L.length - 1]? ≠ some a := fun hc => hmem (L.length - 1) a hc rfl
      have h4 : ¬ (i + 1 < L.length) := by omega
      have h5 : ¬ (i + 1 = L.length) := by omega
      simp [h3, h4, h5, hfresh.1]
  · intro i a hi
    rw [queue_push_infront, hw]
    rw [hget] at hi
    split_ifs at hi with h1 h2
    · have h3 : a ≠ e := hmem i a hi
      simp only [h3, false_and, if_false]
      rw [h.infront i a hi]
      by_cases h0 : i = 0
      · simp [h0]
      · have h4 : i - 1 < L.length := by omega
        simp [h0, hget, h4]
    · have hae : a = e := by simpa using hi.symm
      subst hae
      subst h2
      by_cases h0 : L.length = 0
      · have : L = [] := List.length_eq_zero.mp h0
        subst this
        simp [hfresh.2]
      · have h3 : L[L.length - 1]? ≠ none := by
          rw [Ne, List.getElem?_eq_none_iff]; omega
        have h4 : L.length - 1 < L.length := by omega
        simp [h3, h0, hget, h4]

/-- Unlinking a member: the result of `queue_pop` is the well-formed queue
with that entry erased, the other members in their old order. -/
theorem queue_pop_represents {m : Memory} {L : List Nat} {e : Nat}
    (h : Represents m L) (he : e ∈ L) :
    Represents (queue_pop m e) (L.erase e) := by
  obtain ⟨k, hk⟩ := List.mem_iff_getElem?.mp he
  obtain ⟨hklt, hke⟩ := List.getElem?_eq_some.mp hk
  have herase : L.erase e = L.eraseIdx k := by
    rw [← hke]; exact h.nodup.erase_getElem k hklt
  have hget : ∀ i : Nat, (L.eraseIdx k)[i]? = if i < k then L[i]? else L[i + 1]? :=
    fun i => List.getElem?_eraseIdx L k i
  have hlen : (L.eraseIdx k).length = L.length - 1 := List.length_eraseIdx_of_lt hklt
  have hb := h.behind k e hk
  have hf := h.infront k e hk
  have hsome : ∀ i : Nat, i < L.length → L[i]? ≠ none := by
    intro i hi; rw [Ne, List.getElem?_eq_none_iff]; omega
  have hnone : ∀ i : Nat, L.length ≤ i → L[i]? = none := fun i hi => List.getElem?_eq_none hi
  rw [herase]
  refine ⟨?_, ?_, ?_, ?_, ?_⟩
  · rw [← herase]; exact h.nodup.erase e
  · rw [queue_pop_ready, hf, hb, List.head?_eq_getElem?, hget, h.ready_eq]
    by_cases h0 : k = 0
    · simp [h0]
    · have := hsome (k - 1) (by omega)
      have hk0 : 0 < k := by omega
      simp [h0, this, hk0]
  · rw [queue_pop_waiting, hf, hb, List.getLast?_eq_getElem?, hlen, hget, h.waiting_eq]
    by_cases hkl : k + 1 = L.length
    · have h1 := hnone (k + 1) (by omega)
      by_cases h0 : k = 0
      · have h2 := hnone (L.length - 1 - 1 + 1) (by omega)
        have h3 : ¬ (L.length - 1 - 1 < k) := by omega
        simp [h1, h0, h2]
        intro h4; omega
      · have h3 : L.length - 1 - 1 < k := by omega
        have h4 : L.length - 1 - 1 = k - 1 := by omega
        have h5 : 0 < k := by omega
        simp [h1, h0, h4, h5]
    · have h1 := hsome (k + 1) (by omega)
      have h3 : ¬ (L.length - 1 - 1 < k) := by omega
      have h4 : L.length - 1 - 1 + 1 = L.length - 1 := by omega
      simp [h1, h3, h4]
  · intro i a hi
    rw [hget] at hi
    rw [queue_pop_behind, hf, hb, hget]
    by_cases hik : i < k
    · rw [if_pos hik] at hi
      by_cases hik1 : i + 1 = k
      · have h0 : k ≠ 0 := by omega
        have h1 : k - 1 = i := by omega
        have h2 : ¬ (i + 1 < k) := by omega
        simp [h0, h1, hi, h2, ← hik1]
      · have h2 : i + 1 < k := by omega
        have h3 : ¬ ((if k = 0 then none else L[k - 1]?) = some a) := by
          intro hc
          have h0 : k ≠ 0 := by omega
          rw [if_neg h0] at hc
          have := h.index_unique hc hi
          omega
        rw [if_neg h3, if_pos h2]
        exact h.behind i a hi
    · rw [if_neg hik] at hi
      have h2 : ¬ (i + 1 < k) := by omega
      have h3 : ¬ ((if k = 0 then none else L[k - 1]?) = some a) := by
        intro hc
        by_cases h0 : k = 0
        · simp [h0] at hc
        · rw [if_neg h0] at hc
          have := h.index_unique hc hi
          omega
      rw [if_neg h3, if_neg h2]
      exact h.behind (i + 1) a hi
  · intro i a hi
    rw [hget] at hi
    rw [queue_pop_infront, hf, hb]
    by_cases hik : i < k
    · rw [if_pos hik] at hi
      have h3 : ¬ (L[k + 1]? = some a) := by
        intro hc
        have := h.index_unique hc hi
        omega
      rw [if_neg h3, h.infront i a hi]
      by_cases h0 : i = 0
      · simp [h0]
      · have h4 : i - 1 < k := by omega
        simp [h0, hget, h4]
    · rw [if_neg hik] at hi
      by_cases hik1 : i = k
      · subst hik1
        rw [if_pos hi]
        by_cases h0 : i = 0
        · simp [h0]
        · have h4 : i - 1 < i := by omega
          simp [h0, hget, h4]
      · have h3 : ¬ (L[k + 1]? = some a) := by
          intro hc
          have := h.index_unique hc hi
          omega
        have h0 : i ≠ 0 := by omega
        have h4 : ¬ (i - 1 < k) := by omega
        have h5 : i - 1 + 1 = i := by omega
        rw [if_neg h3, h.infront (i + 1) a hi]
        simp [h0, hget, h4, h5]

theorem Represents.walk_eq {m : Memory} {L : List Nat} (h : Represents m L) :
    ∀ (n i : Nat), walk m n L[i]? = (L.drop i).take n := by
  intro n
  induction n with
  | zero => intro i; simp [walk]
  | succ n ih =>
    intro i
    by_cases hi : i < L.length
    · have hget : L[i]? = some L[i] := List.getElem?_eq_getElem hi
      rw [hget, List.drop_eq_getElem_cons hi, List.take_succ_cons]
      simp only [walk]
      rw [h.behind i _ hget, ih (i + 1)]
    · have hnone : L[i]? = none := List.getElem?_eq_none (by omega)
      rw [hnone, List.drop_eq_nil_of_le (by omega)]
      simp [walk]

/-- On a well-formed queue the traversal from `ready` along `behind` links
lists the members, front to back. -/
theorem Represents.traversal_eq {m : Memory} {L : List Nat} (h : Represents m L)
    {fuel : Nat} (hfuel : L.length ≤ fuel) : traversal m fuel = L := by
  unfold traversal
  rw [h.ready_eq, h.walk_eq fuel 0]
  simp [List.take_of_length_le hfuel]

theorem Represents.mem_index {m : Memory} {L : List Nat} (_h : Represents m L) {e : Nat}
    (he : e ∈ L) : ∃ k : Nat, L[k]? = some e :=
  List.mem_iff_getElem?.mp he

/-! ## Claims about the two primitives -/

/-- C7: `queue_push` appends at the tail.  On a well-formed queue with
traversal `L` and a fresh non-member entry `e`, the queue after `queue_push`
is well formed with traversal `L ++ [e]` and back `e`; when `L` is empty `e`
is also the front, otherwise the front is unchanged and `e` is linked behind
the previous back `b` (`b.behind = e`, `e.infront = b`). -/
theorem queue_push_appends (m : Memory) (L : List Nat) (e : Nat)
    (h : Represents m L) (hne : e ∉ L) (hfresh : Fresh m e) :
    Represents (queue_push m e) (L ++ [e]) ∧
    traversal (queue_push m e) (L.length + 1) = L ++ [e] ∧
    (queue_push m e).backend.waiting = some e ∧
    (L = [] → (queue_push m e).backend.ready = some e) ∧
    (L ≠ [] → (queue_push m e).backend.ready = m.backend.ready ∧
      (queue_push m e).backend.ready = L.head? ∧
      ∃ b, L.getLast? = some b ∧ m.backend.waiting = some b ∧
        ((queue_push m e).entry b).behind = some e ∧
        ((queue_push m e).entry e).infront = some b) := by
  have hr := queue_push_represents h hne hfresh
  refine ⟨hr, hr.traversal_eq (by simp), queue_push_waiting m e, ?_, ?_⟩
  · intro hL
    subst hL
    simpa using hr.ready
  · intro hL
    obtain ⟨b, hb⟩ : ∃ b, L.getLast? = some b := by
      cases hl : L.getLast? with
      | none => exact absurd (List.getLast?_eq_none_iff.mp hl) hL
      | some b => exact ⟨b, rfl⟩
    have hw : m.backend.waiting = some b := h.waiting.trans hb
    have hready : (queue_push m e).backend.ready = m.backend.ready := by
      rw [queue_push_ready, hw]; simp
    refine ⟨hready, hready.trans h.ready, b, hb, hw, ?_, ?_⟩
    · rw [queue_push_behind, hw]; simp
    · rw [queue_push_infront, hw]; simp

/-- Witness of C7: pushing entry 5 onto the empty queue. -/
theorem queue_push_appends_witness :
    Represents (queue_push Memory.empty 5) ([] ++ [5]) ∧
    (queue_push Memory.empty 5).backend.waiting = some 5 :=
  have r := queue_push_appends Memory.empty [] 5 represents_empty (by simp) ⟨rfl, rfl⟩
  ⟨r.1, r.2.2.1⟩

/-- C8: `queue_pop` unlinks an arbitrary member.  On a well-formed queue with
traversal `L` and a member `e`, the queue after `queue_pop` is well formed
with traversal `L.erase e`, a sublist of `L` (the order of the others is
kept); front and back are the first and last remaining entries, both null
when `L = [e]`; and the former neighbours of `e` are linked to each other:
the entry in front of `e` gets `e`'s `behind` link, the entry behind `e`
gets `e`'s `infront` link. -/
theorem queue_pop_unlinks (m : Memory) (L : List Nat) (e : Nat)
    (h : Represents m L) (he : e ∈ L) :
    Represents (queue_pop m e) (L.erase e) ∧
    traversal (queue_pop m e) L.length = L.erase e ∧
    e ∉ L.erase e ∧ (L.erase e).Sublist L ∧ (∀ a, a ∈ L → a ≠ e → a ∈ L.erase e) ∧
    (queue_pop m e).backend.ready = (L.erase e).head? ∧
    (queue_pop m e).backend.waiting = (L.erase e).getLast? ∧
    (L = [e] → (queue_pop m e).backend.ready = none ∧
      (queue_pop m e).backend.waiting = none) ∧
    (∀ p, (m.entry e).infront = some p →
      p ∈ L ∧ ((queue_pop m e).entry p).behind = (m.entry e).behind) ∧
    (∀ n, (m.entry e).behind = some n →
      n ∈ L ∧ ((queue_pop m e).entry n).infront = (m.entry e).infront) := by
  have hr := queue_pop_represents h he
  obtain ⟨k, hk⟩ := h.mem_index he
  refine ⟨hr, hr.traversal_eq ?_, ?_, List.erase_sublist e L, ?_, hr.ready, hr.waiting, ?_, ?_, ?_⟩
  · exact (List.erase_sublist e L).length_le
  · exact h.nodup.not_mem_erase
  · intro a ha hae
    exact (List.mem_erase_of_ne hae).mpr ha
  · intro hL
    subst hL
    have hr1 := hr.ready
    have hr2 := hr.waiting
    simp at hr1 hr2
    exact ⟨hr1, hr2⟩
  · intro p hp
    constructor
    · have hf := h.infront k e hk
      rw [hp] at hf
      by_cases h0 : k = 0
      · simp [h0] at hf
      · rw [if_neg h0] at hf
        exact List.mem_iff_getElem?.mpr ⟨k - 1, hf.symm⟩
    · rw [queue_pop_behind, hp]; simp
  · intro n hn
    constructor
    · have hb := h.behind k e hk
      rw [hn] at hb
      exact List.mem_iff_getElem?.mpr ⟨k + 1, hb.symm⟩
    · rw [queue_pop_infront, hn]; simp

theorem three_entries_represents : Represents three_entries [1, 2, 3] :=
  queue_push_represents (L := [1, 2])
    (queue_push_represents (L := [1])
      (queue_push_represents (L := []) represents_empty (by simp) ⟨rfl, rfl⟩)
      (by simp) ⟨rfl, rfl⟩)
    (by simp) ⟨rfl, rfl⟩

/-- Witness of C8: unlinking the middle entry of the queue `[1, 2, 3]`. -/
theorem queue_pop_unlinks_witness :
    Represents (queue_pop three_entries 2) ([1, 2, 3].erase 2) ∧
    traversal (queue_pop three_entries 2) [1, 2, 3].length = [1, 2, 3].erase 2 :=
  have r := queue_pop_unlinks three_entries [1, 2, 3] 2 three_entries_represents (by simp)
  ⟨r.1, r.2.1⟩

/-! ## The well-formedness predicate -/

theorem walk_links (m : Memory) : ∀ (L : List Nat) (p : Option Nat),
    walk m (L.length + 1) p = L →
    p = L.head? ∧ ∀ (i a : Nat), L[i]? = some a → (m.entry a).behind = L[i + 1]? := by
  intro L
  induction L with
  | nil =>
    intro p hp
    cases p with
    | none => simp
    | some a => simp [walk] at hp
  | cons x L ih =>
    intro p hp
    cases p with
    | none => simp [walk] at hp
    | some a =>
      simp only [List.length_cons, walk, List.cons.injEq] at hp
      obtain ⟨hax, hrest⟩ := hp
      subst hax
      obtain ⟨hhead, hlinks⟩ := ih _ hrest
      refine ⟨rfl, ?_⟩
      intro i b hi
      cases i with
      | zero =>
        simp at hi
        subst hi
        simpa [List.head?_eq_getElem?] using hhead
      | succ i =>
        simp only [List.getElem?_cons_succ] at hi ⊢
        exact hlinks i b hi

theorem WellFormed.represents {m : Memory} {L : List Nat} (h : WellFormed m L) :
    Represents m L := by
  obtain ⟨⟨_, hlink, hnd, htrav, hback⟩, hfront⟩ := h
  obtain ⟨hready, hbehind⟩ := walk_links m L _ htrav
  refine ⟨hnd, hready, hback, hbehind, ?_⟩
  intro i a hi
  cases i with
  | zero =>
    simp only [if_true]
    exact hfront a (by rw [List.head?_eq_getElem?]; exact hi)
  | succ i =>
    have hlt : i + 1 < L.length := (List.getElem?_eq_some.mp hi).1
    have hp : L[i]? = some L[i] := List.getElem?_eq_getElem (by omega)
    have hpm : L[i] ∈ L := List.getElem_mem _
    have ham : a ∈ L := List.mem_iff_getElem?.mpr ⟨i + 1, hi⟩
    have hb := hbehind i _ hp
    rw [hi] at hb
    have := (hlink _ hpm a ham).mp hb
    simp [this, hp]

theorem Represents.wellFormed {m : Memory} {L : List Nat} (h : Represents m L) :
    WellFormed m L := by
  refine ⟨⟨?_, ?_, h.nodup, h.traversal_eq (by omega), h.waiting⟩, ?_⟩
  · rw [h.ready, h.waiting]
    cases L with
    | nil => simp
    | cons x L => simp [List.getLast?_eq_none_iff]
  · intro a ha b hb
    obtain ⟨i, hi⟩ := List.mem_iff_getElem?.mp ha
    obtain ⟨j, hj⟩ := List.mem_iff_getElem?.mp hb
    rw [h.behind i a hi, h.infront j b hj]
    constructor
    · intro hc
      have hji : i + 1 = j := h.index_unique hc hj
      subst hji
      simpa using hi
    · intro hc
      by_cases h0 : j = 0
      · simp [h0] at hc
      · rw [if_neg h0] at hc
        have hji : j - 1 = i := h.index_unique hc hi
        have : i + 1 = j := by omega
        subst this
        exact hj
  · intro a ha
    have := h.infront 0 a (by rw [← List.head?_eq_getElem?]; exact ha)
    simpa using this

/-! ## Queue operations of other fibers -/

theorem represents_store {m : Memory} {L : List Nat} (h : Represents m L) {e : Nat}
    (hne : e ∉ L) (r : Event_Backend_Queue) : Represents (m.store e r) L := by
  have hmem : ∀ (i a : Nat), L[i]? = some a → a ≠ e := by
    intro i a hi hae
    exact hne (hae ▸ List.mem_iff_getElem?.mpr ⟨i, hi⟩)
  refine ⟨h.nodup, h.ready, h.waiting, ?_, ?_⟩
  · intro i a hi
    simp only [store_entry, if_neg (hmem i a hi)]
    exact h.behind i a hi
  · intro i a hi
    simp only [store_entry, if_neg (hmem i a hi)]
    exact h.infront i a hi

theorem fresh_store (m : Memory) (e flags : Nat) (fiber : VALUE) :
    Fresh (m.store e { behind := none, infront := none, flags := flags, fiber := fiber }) e := by
  simp [Fresh]

theorem push_run_represents {m : Memory} {L : List Nat} (h : Represents m L) {e : Nat}
    (hne : e ∉ L) (flags : Nat) (fiber : VALUE) :
    Represents (Action.run m (.push e flags fiber)) (L ++ [e]) :=
  queue_push_represents (represents_store h hne _) hne (fresh_store m e flags fiber)

theorem admissible_represents (keep : List Nat) :
    ∀ (actions : List Action) (m : Memory) (L : List Nat),
      Represents m L → Admissible keep L actions →
      Represents (actions.foldl Action.run m) (actions.foldl Action.members L) := by
  intro actions
  induction actions with
  | nil => intro m L h _; exact h
  | cons a rest ih =>
    intro m L h hadm
    cases a with
    | push e flags fiber =>
      obtain ⟨hne, _, hrest⟩ := hadm
      exact ih _ _ (push_run_represents h hne flags fiber) hrest
    | unlink e =>
      obtain ⟨he, _, hrest⟩ := hadm
      exact ih _ _ (queue_pop_represents h he) hrest

theorem admissible_keeps (keep : List Nat) {x : Nat} (hx : x ∈ keep) :
    ∀ (actions : List Action) (L : List Nat),
      Admissible keep L actions → x ∈ L → x ∈ actions.foldl Action.members L := by
  intro actions
  induction actions with
  | nil => intro L _ h; exact h
  | cons a rest ih =>
    intro L hadm hxL
    cases a with
    | push e flags fiber =>
      obtain ⟨_, _, hrest⟩ := hadm
      exact ih _ hrest (by simp [Action.members, hxL])
    | unlink e =>
      obtain ⟨_, hek, hrest⟩ := hadm
      have hxe : x ≠ e := fun hc => hek (hc ▸ hx)
      exact ih _ hrest ((List.mem_erase_of_ne hxe).mpr hxL)

/-! ## Claim C9 -/

theorem two_entries_behind (a : Nat) :
    (two_entries.entry a).behind = if a = 1 then some 2 else none := by
  unfold two_entries
  rw [queue_push_behind, queue_push_waiting, queue_push_behind]
  by_cases h : a = 1 <;> simp [h, Memory.empty, eq_comm]

theorem two_entries_infront (a : Nat) :
    (two_entries.entry a).infront = if a = 2 then some 1 else none := by
  unfold two_entries
  rw [queue_push_infront, queue_push_waiting, queue_push_infront]
  by_cases h : a = 2 <;> simp [h, Memory.empty]

theorem dangling_front_behind (a : Nat) :
    (dangling_front.entry a).behind = if a = 2 then some 1 else none := by
  unfold dangling_front
  by_cases h1 : a = 1 <;> by_cases h2 : a = 2 <;> simp [h1, h2]

theorem dangling_front_infront (a : Nat) :
    (dangling_front.entry a).infront = if a = 1 then some 2 else none := by
  unfold dangling_front
  by_cases h1 : a = 1 <;> by_cases h2 : a = 2 <;> simp [h1, h2]

/-- C9, as stated, fails.  (a) With the link condition read over all entries:
the queue obtained by pushing 1 and 2 satisfies the predicate, and after
`queue_pop` of the member 1 the popped entry still has `behind == 2` while
`2.infront` is null.  (b) With the link condition read over the members: the
queue `dangling_front` with the single member 1 satisfies the predicate (under
both readings), and after `queue_pop` of 1 the front still points at 1 while
the back points at 2, so the predicate holds for no member list. -/
theorem stated_invariant_not_preserved :
    (StatedInvariantAll two_entries [1, 2] ∧ 1 ∈ [1, 2] ∧
      ¬ StatedInvariantAll (queue_pop two_entries 1) ([1, 2].erase 1)) ∧
    (StatedInvariant dangling_front [1] ∧ StatedInvariantAll dangling_front [1] ∧
      1 ∈ [1] ∧ ¬ StatedInvariant (queue_pop dangling_front 1) ([1].erase 1) ∧
      ¬ ∃ L, StatedInvariant (queue_pop dangling_front 1) L) := by
  have hlinks : ∀ a b : Nat, ((dangling_front.entry a).behind = some b ↔
      (dangling_front.entry b).infront = some a) := by
    intro a b
    rw [dangling_front_behind, dangling_front_infront]
    by_cases h1 : a = 2 <;> by_cases h2 : b = 1 <;> simp [h1, h2, eq_comm]
  have hready : (queue_pop dangling_front 1).backend.ready = some 1 := by
    rw [queue_pop_ready, dangling_front_infront]; simp [dangling_front]
  have hwaiting : (queue_pop dangling_front 1).backend.waiting = some 2 := by
    rw [queue_pop_waiting, dangling_front_behind, dangling_front_infront]; simp
  have hnone : ¬ ∃ L, StatedInvariant (queue_pop dangling_front 1) L := by
    rintro ⟨L, _, _, _, htrav, hback⟩
    obtain ⟨hhead, hb⟩ := walk_links _ L _ htrav
    rw [hready] at hhead
    cases L with
    | nil => simp at hhead
    | cons x L =>
      simp at hhead
      subst hhead
      have h1 := hb 0 1 (by simp)
      rw [queue_pop_behind, dangling_front_infront, dangling_front_behind] at h1
      simp at h1
      have hL : L = [] := by
        cases L with
        | nil => rfl
        | cons y L => simp at h1
      subst hL
      rw [hwaiting] at hback
      simp at hback
  have hA : StatedInvariantAll two_entries [1, 2] := by
    refine ⟨?_, ?_, by decide, ?_, ?_⟩
    · simp [two_entries, queue_push_ready, queue_push_waiting, Memory.empty]
    · intro a b
      rw [two_entries_behind, two_entries_infront]
      by_cases h1 : a = 1 <;> by_cases h2 : b = 2 <;> simp [h1, h2, eq_comm]
    · rfl
    · rfl
  have hA' : ¬ StatedInvariantAll (queue_pop two_entries 1) ([1, 2].erase 1) := by
    rintro ⟨_, hl, _⟩
    have := (hl 1 2).mp (by
      rw [queue_pop_behind, two_entries_infront, two_entries_behind]; simp)
    rw [queue_pop_infront, two_entries_behind, two_entries_infront] at this
    simp at this
  have hB : StatedInvariantAll dangling_front [1] :=
    ⟨by simp [dangling_front], hlinks, by decide, rfl, rfl⟩
  have hB0 : StatedInvariant dangling_front [1] :=
    ⟨hB.1, fun a _ b _ => hlinks a b, by decide, rfl, rfl⟩
  exact ⟨⟨hA, by decide, hA'⟩, hB0, hB, by decide, fun hc => hnone ⟨_, hc⟩, hnone⟩

/-- C9 (amended): the predicate `WellFormed` (the stated predicate read over
the members, together with a null `infront` link at the front) holds for every
empty queue, is preserved by `queue_push` of a fresh non-member and by
`queue_pop` of a member, hence by `Event_Backend_queue_push` and by every
sequence of such pushes and unlinks started from the empty queue. -/
theorem wellformed_invariant :
    (∀ m : Memory, m.backend.ready = none → m.backend.waiting = none → WellFormed m []) ∧
    (∀ (m : Memory) (L : List Nat) (e : Nat),
      WellFormed m L → e ∉ L → Fresh m e → WellFormed (queue_push m e) (L ++ [e])) ∧
    (∀ (m : Memory) (L : List Nat) (e : Nat),
      WellFormed m L → e ∈ L → WellFormed (queue_pop m e) (L.erase e)) ∧
    (∀ (w : World) (L : List Nat) (e : Nat) (fiber : VALUE),
      WellFormed w.memory L → e ∉ L →
      WellFormed (Event_Backend_queue_push w e fiber).memory (L ++ [e])) ∧
    (∀ actions : List Action, Admissible [] [] actions →
      WellFormed (actions.foldl Action.run Memory.empty) (actions.foldl Action.members [])) := by
  refine ⟨?_, ?_, ?_, ?_, ?_⟩
  · intro m hr hw
    refine Represents.wellFormed ⟨List.nodup_nil, hr, hw, ?_, ?_⟩
    · intro i a h; simp at h
    · intro i a h; simp at h
  · intro m L e h hne hfresh
    exact (queue_push_represents h.represents hne hfresh).wellFormed
  · intro m L e h he
    exact (queue_pop_represents h.represents he).wellFormed
  · intro w L e fiber h hne
    exact (push_run_represents h.represents hne EVENT_BACKEND_QUEUE_INTERNAL fiber).wellFormed
  · intro actions hadm
    exact (admissible_represents [] actions _ _ represents_empty hadm).wellFormed

/-- Witness of C9 (amended): push entry 1 on the empty queue, then unlink it. -/
theorem wellformed_invariant_witness :
    WellFormed (queue_pop (queue_push Memory.empty 1) 1) (([] ++ [1]).erase 1) :=
  wellformed_invariant.2.2.1 _ _ 1
    (wellformed_invariant.2.1 _ _ 1 (wellformed_invariant.1 _ rfl rfl) (by simp) ⟨rfl, rfl⟩)
    (by simp)

/-! ## The suspend calls -/

theorem suspend_cleanup (h : Host) (w : World) (L : List Nat) (self : Nat) (current : VALUE)
    (t : Transfer) (hw : Represents w.memory L) (hself : self ∉ L)
    (hadm : Admissible [self] (L ++ [self]) (h.respond w.clock).actions) :
    let pushed := queue_push (w.memory.store self
      { behind := none, infront := none, flags := EVENT_BACKEND_QUEUE_FIBER,
        fiber := current }) self
    let back := (h.switch { w with memory := pushed } t).2
    let members := (h.respond w.clock).actions.foldl Action.members (L ++ [self])
    Represents pushed (L ++ [self]) ∧ Represents back.memory members ∧ self ∈ members ∧
    Represents (queue_pop back.memory self) (members.erase self) ∧
    self ∉ members.erase self ∧ (members.erase self).length + 1 = members.length ∧
    (members.erase self).Sublist members ∧
    (∀ a, a ∈ members → a ≠ self → a ∈ members.erase self) := by
  intro pushed back members
  have hp : Represents pushed (L ++ [self]) :=
    push_run_represents hw hself EVENT_BACKEND_QUEUE_FIBER current
  have hb : Represents back.memory members :=
    admissible_represents [self] _ _ _ hp hadm
  have hm : self ∈ members :=
    admissible_keeps [self] (by simp) _ _ hadm (by simp)
  refine ⟨hp, hb, hm, queue_pop_represents hb hm, hb.nodup.not_mem_erase, ?_,
    List.erase_sublist _ _, ?_⟩
  · rw [List.length_erase_of_mem hm]
    have : 0 < members.length := List.length_pos_of_mem hm
    omega
  · intro a ha hne
    exact (List.mem_erase_of_ne hne).mpr ha

/-- C4: cleanup on normal return.  On a well-formed queue `L`, with the
caller's entry at a fresh address `self`, at least one argument, and the other
fibers performing admissible queue operations that leave `self` alone: when
the control transfer yields the value `v`, `Event_Backend_wait_and_transfer`
returns `v`; the queue when control came back (`members`) contained `self`,
and the queue on return is that queue with `self` erased: `self` is not a
member, the size is one less, the others keep their order. -/
theorem wait_and_transfer_cleanup (h : Host) (w : World) (L : List Nat) (self : Nat)
    (current : VALUE) (argv : List VALUE) (v : VALUE)
    (hw : Represents w.memory L) (hself : self ∉ L) (hargc : 1 ≤ argv.length)
    (hadm : Admissible [self] (L ++ [self]) (h.respond w.clock).actions)
    (hval : (h.respond w.clock).result = .ok v) :
    let members := (h.respond w.clock).actions.foldl Action.members (L ++ [self])
    let pushed := queue_push (w.memory.store self
      { behind := none, infront := none, flags := EVENT_BACKEND_QUEUE_FIBER,
        fiber := current }) self
    let back := (h.respond w.clock).actions.foldl Action.run pushed
    let r := Event_Backend_wait_and_transfer h w self current argv
    r.1 = .ok v ∧
    Represents back members ∧ self ∈ members ∧
    r.2.memory = queue_pop back self ∧
    Represents r.2.memory (members.erase self) ∧
    self ∉ members.erase self ∧ (members.erase self).length + 1 = members.length ∧
    (members.erase self).Sublist members ∧
    (∀ a, a ∈ members → a ≠ self → a ∈ members.erase self) := by
  intro members pushed back r
  have _ := hargc
  have hc := suspend_cleanup h w L self current
    (.transfer (argv.headD Qnil) argv.tail) hw hself hadm
  have hr1 : r.1 = .ok v := by
    simp [r, Event_Backend_wait_and_transfer, rb_ensure, wait_and_transfer,
      Event_Backend_fiber_transfer, Host.switch, hval]
  have hr2 : r.2.memory = queue_pop back self := by
    simp [r, Event_Backend_wait_and_transfer, rb_ensure, wait_and_transfer,
      Event_Backend_fiber_transfer, Host.switch, wait_and_transfer_ensure, back, pushed]
  refine ⟨hr1, hc.2.1, hc.2.2.1, hr2, ?_, hc.2.2.2.2⟩
  rw [hr2]
  exact hc.2.2.2.1

/-- Witness of C4: a caller suspends on the empty queue with entry 7 and the
transfer comes back with the value 42. -/
theorem wait_and_transfer_cleanup_witness :
    (Event_Backend_wait_and_transfer (Host.returning 42) (World.start Memory.empty)
      7 3 [9]).1 = .ok 42 ∧
    Represents (Event_Backend_wait_and_transfer (Host.returning 42)
      (World.start Memory.empty) 7 3 [9]).2.memory [] :=
  have r := wait_and_transfer_cleanup (Host.returning 42) (World.start Memory.empty) [] 7 3 [9]
    42 represents_empty (by simp) (by simp) trivial rfl
  ⟨r.1, r.2.2.2.2.1⟩

/-- C5: cleanup on exceptional return.  Under the conditions of C4, when the
control transfer of `Event_Backend_wait_and_raise` (at least two arguments) or
of `Event_Backend_wait_and_transfer` (at least one) ends with the exception
`e`, the call propagates exactly `e`, and the queue at that point is the queue
as it stood when control came back with the caller's entry erased: `self` is
not a member and the other members are unchanged, in the same order. -/
theorem wait_and_raise_cleanup (h : Host) (w : World) (L : List Nat) (self : Nat)
    (current : VALUE) (argv : List VALUE) (e : VALUE)
    (hw : Represents w.memory L) (hself : self ∉ L) (hargc : 1 ≤ argv.length)
    (hadm : Admissible [self] (L ++ [self]) (h.respond w.clock).actions)
    (herr : (h.respond w.clock).result = .error e) :
    let members := (h.respond w.clock).actions.foldl Action.members (L ++ [self])
    let pushed := queue_push (w.memory.store self
      { behind := none, infront := none, flags := EVENT_BACKEND_QUEUE_FIBER,
        fiber := current }) self
    let back := (h.respond w.clock).actions.foldl Action.run pushed
    let r := Event_Backend_wait_and_transfer h w self current argv
    let r' := Event_Backend_wait_and_raise h w self current argv
    Represents back members ∧ self ∈ members ∧
    self ∉ members.erase self ∧ (members.erase self).Sublist members ∧
    (∀ a, a ∈ members → a ≠ self → a ∈ members.erase self) ∧
    (r.1 = .error (.exception e) ∧ r.2.memory = queue_pop back self ∧
      Represents r.2.memory (members.erase self)) ∧
    (2 ≤ argv.length →
      r'.1 = .error (.exception e) ∧ r'.2.memory = queue_pop back self ∧
      Represents r'.2.memory (members.erase self)) := by
  intro members pushed back r r'
  have _ := hargc
  have hc := suspend_cleanup h w L self current
    (.transfer (argv.headD Qnil) argv.tail) hw hself hadm
  have hr2 : r.2.memory = queue_pop back self := by
    simp [r, Event_Backend_wait_and_transfer, rb_ensure, wait_and_transfer,
      Event_Backend_fiber_transfer, Host.switch, wait_and_transfer_ensure, back, pushed]
  refine ⟨hc.2.1, hc.2.2.1, hc.2.2.2.2.1, hc.2.2.2.2.2.2.1, hc.2.2.2.2.2.2.2, ⟨?_, hr2, ?_⟩, ?_⟩
  · simp [r, Event_Backend_wait_and_transfer, rb_ensure, wait_and_transfer,
      Event_Backend_fiber_transfer, Host.switch, herr]
  · rw [hr2]; exact hc.2.2.2.1
  · intro h2
    have hr2' : r'.2.memory = queue_pop back self := by
      simp [r', Event_Backend_wait_and_raise, rb_ensure, wait_and_raise,
        Event_Backend_fiber_raise, Host.switch, wait_and_transfer_ensure, back, pushed]
    refine ⟨?_, hr2', ?_⟩
    · simp [r', Event_Backend_wait_and_raise, rb_ensure, wait_and_raise,
        Event_Backend_fiber_raise, Host.switch, herr]
    · rw [hr2']; exact hc.2.2.2.1

/-- Witness of C5: a caller suspends on the empty queue with entry 7 and the
exception 13 is raised into it. -/
theorem wait_and_raise_cleanup_witness :
    (Event_Backend_wait_and_raise (Host.raising 13) (World.start Memory.empty)
      7 3 [9, 13]).1 = .error (.exception 13) ∧
    Represents (Event_Backend_wait_and_raise (Host.raising 13)
      (World.start Memory.empty) 7 3 [9, 13]).2.memory [] :=
  have r := wait_and_raise_cleanup (Host.raising 13) (World.start Memory.empty) [] 7 3 [9, 13]
    13 represents_empty (by simp) (by simp) trivial rfl
  have r' := r.2.2.2.2.2.2 (by simp)
  ⟨r'.1, r'.2.2⟩

/-! ## Dispatch of one entry -/

/-- C6: dead-target no-op.  For a DETACHED member `e` of a well-formed queue
`L`, `Event_Backend_queue_pop` first unlinks `e` (the queue becomes
`L.erase e`); if the task reports alive it then makes exactly one control
transfer, into the task, with no arguments; if not, it makes no transfer,
raises no error and leaves the world as it is after the unlink.  The loop of
`Event_Backend_queue_flush` counts a dead entry at the front all the same:
one iteration adds one to the count, and a flush of the queue `[e]` returns 1. -/
theorem dispatch_detached (h : Host) (w : World) (L : List Nat) (e : Nat)
    (hw : Represents w.memory L) (he : e ∈ L)
    (hflag : (w.memory.entry e).flags &&& EVENT_BACKEND_QUEUE_FIBER = 0) :
    let fiber := (w.memory.entry e).fiber
    let unlinked : World := { w with memory := queue_pop w.memory e }
    let r := Event_Backend_queue_pop h w e
    Represents unlinked.memory (L.erase e) ∧ e ∉ L.erase e ∧
    (h.alive w.clock fiber = true →
      r.2 = (Event_Backend_fiber_transfer h unlinked fiber []).2 ∧
      r.2.transfers = w.transfers ++ [.transfer fiber []] ∧
      r.2.memory = (h.respond w.clock).actions.foldl Action.run (queue_pop w.memory e)) ∧
    (h.alive w.clock fiber = false →
      r.1 = .ok () ∧ r.2 = unlinked ∧ r.2.transfers = w.transfers ∧ r.2.clock = w.clock) ∧
    (h.alive w.clock fiber = false → w.memory.backend.ready = some e →
      ∀ (waiting : Option Nat) (fuel count : Nat),
        flush_loop h waiting (fuel + 1) count w =
          if some e = waiting then
            some (.ok (count + 1), { unlinked with dispatched := w.dispatched ++ [e] })
          else
            flush_loop h waiting fuel (count + 1)
              { unlinked with dispatched := w.dispatched ++ [e] }) ∧
    (h.alive w.clock fiber = false → L = [e] →
      ∀ fuel : Nat, Event_Backend_queue_flush h (fuel + 1) w =
        some (.ok 1, { unlinked with dispatched := w.dispatched ++ [e] })) := by
  intro fiber unlinked r
  have hloop : h.alive w.clock fiber = false → w.memory.backend.ready = some e →
      ∀ (waiting : Option Nat) (fuel count : Nat),
        flush_loop h waiting (fuel + 1) count w =
          if some e = waiting then
            some (.ok (count + 1), { unlinked with dispatched := w.dispatched ++ [e] })
          else
            flush_loop h waiting fuel (count + 1)
              { unlinked with dispatched := w.dispatched ++ [e] } := by
    intro hdead hready waiting fuel count
    simp only [flush_loop, hready, Event_Backend_queue_pop, hflag, ne_eq, not_true_eq_false,
      if_false, fiber] at hdead ⊢
    simp [hdead, unlinked]
  refine ⟨queue_pop_represents hw he, hw.nodup.not_mem_erase, ?_, ?_, hloop, ?_⟩
  · intro halive
    simp only [fiber] at halive
    simp [r, unlinked, fiber, Event_Backend_queue_pop, hflag, halive,
      Event_Backend_fiber_transfer, Host.switch]
  · intro hdead
    simp only [fiber] at hdead
    simp [r, unlinked, Event_Backend_queue_pop, hflag, hdead]
  · intro hdead hL
    subst hL
    intro fuel
    have hready : w.memory.backend.ready = some e := by simpa using hw.ready
    have hwaiting : w.memory.backend.waiting = some e := by simpa using hw.waiting
    unfold Event_Backend_queue_flush
    rw [hloop hdead hready, hwaiting]
    simp

/-- Witness of C6: the DETACHED entry 5 of a dead fiber, alone in the queue. -/
theorem dispatch_detached_witness :
    (Event_Backend_queue_pop Host.dead
      (Event_Backend_queue_push (World.start Memory.empty) 5 77) 5).1 = .ok () ∧
    (Event_Backend_queue_pop Host.dead
      (Event_Backend_queue_push (World.start Memory.empty) 5 77) 5).2.transfers = [] ∧
    Event_Backend_queue_flush Host.dead 1
      (Event_Backend_queue_push (World.start Memory.empty) 5 77) =
      some (.ok 1,
        { ({ Event_Backend_queue_push (World.start Memory.empty) 5 77 with
              memory := queue_pop
                (Event_Backend_queue_push (World.start Memory.empty) 5 77).memory 5 } : World)
          with dispatched := [] ++ [5] }) :=
  have r := dispatch_detached Host.dead (Event_Backend_queue_push (World.start Memory.empty) 5 77)
    [5] 5 (push_run_represents (L := []) represents_empty (by simp) _ 77) (by simp) (by decide)
  ⟨(r.2.2.2.1 rfl).1, (r.2.2.2.1 rfl).2.2.1, r.2.2.2.2.2 rfl rfl 0⟩

/-! ## The drain loop -/

theorem admissible_members_append (R : List Nat) :
    ∀ (rest : List Action) (Q : List Nat), Admissible R (R ++ Q) rest →
      rest.foldl Action.members (R ++ Q) = R ++ rest.foldl Action.members Q ∧
      Admissible R (R ++ Q) rest := by
  intro rest
  induction rest with
  | nil => intro Q hadm; exact ⟨rfl, hadm⟩
  | cons a rest ih =>
    intro Q hadm
    refine ⟨?_, hadm⟩
    cases a with
    | push e flags fiber =>
      obtain ⟨_, _, hrest⟩ := hadm
      simp only [Action.members, List.append_assoc] at hrest
      simpa [Action.members] using (ih _ hrest).1
    | unlink e =>
      obtain ⟨_, hk, hrest⟩ := hadm
      simp only [Action.members, List.erase_append_right _ hk] at hrest
      simpa [Action.members, List.erase_append_right _ hk] using (ih _ hrest).1

theorem admissible_entry_kept (keep : List Nat) {x : Nat} (hx : x ∈ keep) :
    ∀ (actions : List Action) (m : Memory) (L : List Nat),
      Admissible keep L actions → x ∈ L →
      ((actions.foldl Action.run m).entry x).flags = (m.entry x).flags ∧
      ((actions.foldl Action.run m).entry x).fiber = (m.entry x).fiber := by
  intro actions
  induction actions with
  | nil => intro m L _ _; exact ⟨rfl, rfl⟩
  | cons a rest ih =>
    intro m L hadm hxL
    cases a with
    | push e flags fiber =>
      obtain ⟨hne, _, hrest⟩ := hadm
      have hxe : x ≠ e := fun hc => hne (hc ▸ hxL)
      have := ih (Action.run m (.push e flags fiber)) _ hrest (by simp [Action.members, hxL])
      simpa [Action.run, queue_push_flags, queue_push_fiber, hxe] using this
    | unlink e =>
      obtain ⟨_, hek, hrest⟩ := hadm
      have hxe : x ≠ e := fun hc => hek (hc ▸ hx)
      have := ih (Action.run m (.unlink e)) _ hrest ((List.mem_erase_of_ne hxe).mpr hxL)
      simpa [Action.run, queue_pop_flags, queue_pop_fiber] using this

theorem drain_dispatch (h : Host) (m : Memory) (P : List Nat) (e : Nat) (R Q : List Nat)
    (w : World) (hrep : Represents w.memory (e :: R ++ Q))
    (hflags : ∀ a ∈ e :: R, (w.memory.entry a).flags = (m.entry a).flags ∧
      (w.memory.entry a).fiber = (m.entry a).fiber)
    (hdrain : Drain h m w.clock (e :: R) Q P) :
    ∃ (w1 : World) (Q1 : List Nat),
      Event_Backend_queue_pop h { w with dispatched := w.dispatched ++ [e] } e = (.ok (), w1) ∧
      w1.dispatched = w.dispatched ++ [e] ∧ Represents w1.memory (R ++ Q1) ∧
      (∀ a ∈ R, (w1.memory.entry a).flags = (m.entry a).flags ∧
        (w1.memory.entry a).fiber = (m.entry a).fiber) ∧
      Drain h m w1.clock R Q1 P := by
  have hfe := hflags e (List.mem_cons_self _ _)
  have hpop : Represents (queue_pop w.memory e) (R ++ Q) := by
    have := queue_pop_represents hrep (List.mem_cons_self _ _)
    simpa using this
  have hkept : ∀ a ∈ R, ((queue_pop w.memory e).entry a).flags = (m.entry a).flags ∧
      ((queue_pop w.memory e).entry a).fiber = (m.entry a).fiber := by
    intro a ha
    rw [queue_pop_flags, queue_pop_fiber]
    exact hflags a (List.mem_cons_of_mem _ ha)
  have hafter : ∀ rest : List Action, Admissible R (R ++ Q) rest →
      Represents (rest.foldl Action.run (queue_pop w.memory e))
        (R ++ rest.foldl Action.members Q) ∧
      ∀ a ∈ R, ((rest.foldl Action.run (queue_pop w.memory e)).entry a).flags =
          (m.entry a).flags ∧
        ((rest.foldl Action.run (queue_pop w.memory e)).entry a).fiber =
          (m.entry a).fiber := by
    intro rest hadm
    constructor
    · rw [← (admissible_members_append R rest Q hadm).1]
      exact admissible_represents R rest _ _ hpop hadm
    · intro a ha
      have := admissible_entry_kept R ha rest (queue_pop w.memory e) _ hadm (by simp [ha])
      rw [this.1, this.2]
      exact hkept a ha
  simp only [Drain] at hdrain
  by_cases hb : (m.entry e).flags &&& EVENT_BACKEND_QUEUE_FIBER ≠ 0
  · rw [if_pos hb] at hdrain
    obtain ⟨v, rest, hresp, hadm, hnext⟩ := hdrain
    have hb' : (w.memory.entry e).flags &&& EVENT_BACKEND_QUEUE_FIBER ≠ 0 := by
      rw [hfe.1]; exact hb
    refine ⟨{ memory := rest.foldl Action.run (queue_pop w.memory e),
              clock := w.clock + 1,
              transfers := w.transfers ++ [.transfer (w.memory.entry e).fiber []],
              dispatched := w.dispatched ++ [e] },
      rest.foldl Action.members Q, ?_, rfl, (hafter rest hadm).1,
      (hafter rest hadm).2, hnext⟩
    simp only [Event_Backend_queue_pop, if_pos hb', Event_Backend_fiber_transfer,
      Host.switch, hresp, List.foldl_cons, Action.run, Except.map]
  · rw [if_neg hb] at hdrain
    have hb' : ¬ ((w.memory.entry e).flags &&& EVENT_BACKEND_QUEUE_FIBER ≠ 0) := by
      rw [hfe.1]; exact hb
    by_cases ha : h.alive w.clock (m.entry e).fiber = true
    · rw [if_pos ha] at hdrain
      obtain ⟨v, rest, hresp, hadm, hnext⟩ := hdrain
      have ha' : h.alive w.clock (w.memory.entry e).fiber = true := by
        rw [hfe.2]; exact ha
      refine ⟨{ memory := rest.foldl Action.run (queue_pop w.memory e),
                clock := w.clock + 1,
                transfers := w.transfers ++ [.transfer (w.memory.entry e).fiber []],
                dispatched := w.dispatched ++ [e] },
        rest.foldl Action.members Q, ?_, rfl, (hafter rest hadm).1,
        (hafter rest hadm).2, hnext⟩
      simp only [Event_Backend_queue_pop, if_neg hb', ha', if_true,
        Event_Backend_fiber_transfer, Host.switch, hresp, Except.map]
    · rw [if_neg ha] at hdrain
      have ha' : ¬ (h.alive w.clock (w.memory.entry e).fiber = true) := by
        rw [hfe.2]; exact ha
      refine ⟨{ w with memory := queue_pop w.memory e, dispatched := w.dispatched ++ [e] },
        Q, ?_, rfl, hpop, hkept, hdrain⟩
      simp only [Event_Backend_queue_pop, if_neg hb', if_neg ha']

theorem flush_loop_drain (h : Host) (m : Memory) (P : List Nat) (bd : Option Nat) :
    ∀ (R Q : List Nat) (w : World) (count fuel : Nat),
      R ≠ [] → R.getLast? = bd → Represents w.memory (R ++ Q) →
      (∀ a ∈ R, (w.memory.entry a).flags = (m.entry a).flags ∧
        (w.memory.entry a).fiber = (m.entry a).fiber) →
      Drain h m w.clock R Q P → R.length ≤ fuel →
      ∃ w1 : World, flush_loop h bd fuel count w = some (.ok (count + R.length), w1) ∧
        w1.dispatched = w.dispatched ++ R ∧ Represents w1.memory P := by
  intro R
  induction R with
  | nil => intro _ _ _ _ hne; exact absurd rfl hne
  | cons e R ih =>
    intro Q w count fuel _ hlast hrep hflags hdrain hfuel
    obtain ⟨f, rfl⟩ : ∃ f, fuel = f + 1 := ⟨fuel - 1, by simp at hfuel; omega⟩
    have hready : w.memory.backend.ready = some e := by rw [hrep.ready]; simp
    obtain ⟨w1, Q1, hstep, hdisp, hrep1, hflags1, hdrain1⟩ :=
      drain_dispatch h m P e R Q w hrep hflags hdrain
    by_cases hR : R = []
    · subst hR
      have hbd : some e = bd := by simpa using hlast
      simp only [Drain] at hdrain1
      subst hdrain1
      subst hbd
      refine ⟨w1, ?_, ?_, ?_⟩
      · simp [flush_loop, hready, hstep]
      · simpa using hdisp
      · simpa using hrep1
    · obtain ⟨x, R', rfl⟩ : ∃ x R', R = x :: R' := by
        cases R with
        | nil => exact absurd rfl hR
        | cons x R' => exact ⟨x, R', rfl⟩
      have hlast' : (x :: R').getLast? = bd := by
        rw [← hlast, List.getLast?_cons_cons]
      have hne : some e ≠ bd := by
        intro hc
        have hmem : e ∈ x :: R' := List.mem_of_getLast?_eq_some (hlast'.trans hc.symm)
        have hnd := hrep.nodup
        simp only [List.cons_append, List.nodup_cons, List.mem_append, List.mem_cons] at hnd
        simp only [List.mem_cons] at hmem
        tauto
      obtain ⟨w2, h1, h2, h3⟩ := ih Q1 w1 (count + 1) f hR hlast' hrep1 hflags1 hdrain1
        (by simp at hfuel ⊢; omega)
      refine ⟨w2, ?_, ?_, h3⟩
      · simp only [flush_loop, hready, hstep, if_neg hne]
        rw [h1]
        simp only [List.length_cons]
        congr 3
        omega
      · rw [h2, hdisp]; simp

theorem pushes_members (ps : List (Nat × Nat × VALUE)) :
    ∀ Q : List Nat, (pushes ps).foldl Action.members Q = Q ++ ps.map (fun p => p.1) := by
  induction ps with
  | nil => intro Q; simp [pushes]
  | cons p ps ih =>
    intro Q
    have := ih (Q ++ [p.1])
    simp only [pushes] at this
    simp [pushes, Action.members, this]

theorem pushOnly_drain (h : Host) (m : Memory) (P : List Nat) :
    ∀ (R Q : List Nat) (c : Nat), PushOnly h m c R Q P → Drain h m c R Q P := by
  intro R
  induction R with
  | nil => intro Q c hp; exact hp
  | cons e R ih =>
    intro Q c hp
    simp only [PushOnly] at hp
    simp only [Drain]
    by_cases hb : (m.entry e).flags &&& EVENT_BACKEND_QUEUE_FIBER ≠ 0
    · rw [if_pos hb] at hp ⊢
      obtain ⟨v, ps, hresp, hadm, hnext⟩ := hp
      exact ⟨v, pushes ps, hresp, hadm, by rw [pushes_members]; exact ih _ _ hnext⟩
    · rw [if_neg hb] at hp ⊢
      by_cases ha : h.alive c (m.entry e).fiber = true
      · rw [if_pos ha] at hp ⊢
        obtain ⟨v, ps, hresp, hadm, hnext⟩ := hp
        exact ⟨v, pushes ps, hresp, hadm, by rw [pushes_members]; exact ih _ _ hnext⟩
      · rw [if_neg ha] at hp ⊢
        exact ih _ _ hp

theorem quiet_pushOnly (h : Host) (m : Memory) :
    ∀ (R Q : List Nat) (c : Nat), Quiet h m c R → PushOnly h m c R Q Q := by
  intro R
  induction R with
  | nil => intro Q c _; rfl
  | cons e R ih =>
    intro Q c hq
    simp only [Quiet] at hq
    simp only [PushOnly]
    by_cases hb : (m.entry e).flags &&& EVENT_BACKEND_QUEUE_FIBER ≠ 0
    · rw [if_pos hb] at hq ⊢
      obtain ⟨⟨v, hresp⟩, hnext⟩ := hq
      exact ⟨v, [], by simpa [pushes] using hresp, trivial, by simpa using ih Q _ hnext⟩
    · rw [if_neg hb] at hq ⊢
      by_cases ha : h.alive c (m.entry e).fiber = true
      · rw [if_pos ha] at hq ⊢
        obtain ⟨⟨v, hresp⟩, hnext⟩ := hq
        exact ⟨v, [], by simpa [pushes] using hresp, trivial, by simpa using ih Q _ hnext⟩
      · rw [if_neg ha] at hq ⊢
        exact ih Q _ hq

/-- A flush whose woken tasks leave the not yet dispatched entries alone
dispatches exactly the entries present at the start, in order, and returns
their number. -/
theorem flush_drain (h : Host) (m : Memory) (w : World) (L P : List Nat) (fuel : Nat)
    (hrep : Represents w.memory L)
    (hflags : ∀ a ∈ L, (w.memory.entry a).flags = (m.entry a).flags ∧
      (w.memory.entry a).fiber = (m.entry a).fiber)
    (hdrain : Drain h m w.clock L [] P) (hfuel : L.length < fuel) :
    ∃ w1 : World, Event_Backend_queue_flush h fuel w = some (.ok L.length, w1) ∧
      w1.dispatched = w.dispatched ++ L ∧ Represents w1.memory P := by
  unfold Event_Backend_queue_flush
  by_cases hL : L = []
  · subst hL
    obtain ⟨f, rfl⟩ : ∃ f, fuel = f + 1 := ⟨fuel - 1, by simp at hfuel; omega⟩
    have hready : w.memory.backend.ready = none := by simpa using hrep.ready
    simp only [Drain] at hdrain
    subst hdrain
    exact ⟨w, by simp [flush_loop, hready], by simp, hrep⟩
  · have := flush_loop_drain h m P w.memory.backend.waiting L [] w 0 fuel hL
      hrep.waiting.symm (by simpa using hrep) hflags hdrain (by omega)
    simpa using this

theorem fresh_queue_push {m : Memory} {K : List Nat} (h : Represents m K) {e x : Nat}
    (hx : Fresh m x) (hxe : x ≠ e) (hxK : x ∉ K) : Fresh (queue_push m e) x := by
  have hw : m.backend.waiting ≠ some x := by
    intro hc
    rw [h.waiting] at hc
    exact hxK (List.mem_of_getLast?_eq_some hc)
  constructor
  · rw [queue_push_behind, if_neg hw]; exact hx.1
  · rw [queue_push_infront]; simp [hxe, hx.2]

theorem foldl_queue_push_represents :
    ∀ (L K : List Nat) (m : Memory), Represents m K → (K ++ L).Nodup →
      (∀ e ∈ L, Fresh m e) → Represents (L.foldl queue_push m) (K ++ L) := by
  intro L
  induction L with
  | nil => intro K m h _ _; simpa using h
  | cons e L ih =>
    intro K m h hnd hfresh
    have hnd' : (K ++ [e] ++ L).Nodup := by simpa using hnd
    have heK : e ∉ K := by
      intro hc
      have := List.nodup_append.mp hnd
      exact this.2.2 hc (List.mem_cons_self _ _) 
    have hstep := queue_push_represents h heK (hfresh e (List.mem_cons_self _ _))
    have := ih (K ++ [e]) (queue_push m e) hstep hnd' (by
      intro x hx
      have hxe : x ≠ e := by
        intro hc
        subst hc
        have := (List.nodup_append.mp hnd).2.1
        exact (List.nodup_cons.mp this).1 hx
      have hxK : x ∉ K := by
        intro hc
        exact (List.nodup_append.mp hnd).2.2 hc (List.mem_cons_of_mem _ hx)
      exact fresh_queue_push h (hfresh x (List.mem_cons_of_mem _ hx)) hxe hxK)
    simpa using this

theorem foldl_queue_push_entry (L : List Nat) :
    ∀ (m : Memory) (a : Nat),
      ((L.foldl queue_push m).entry a).flags = (m.entry a).flags ∧
      ((L.foldl queue_push m).entry a).fiber = (m.entry a).fiber := by
  induction L with
  | nil => intro m a; exact ⟨rfl, rfl⟩
  | cons e L ih =>
    intro m a
    have := ih (queue_push m e) a
    simpa [queue_push_flags, queue_push_fiber] using this

/-! ## Claims about `Event_Backend_queue_flush` -/

/-- C1: FIFO order.  For every list `L` of `N` distinct fresh entries pushed
with `queue_push` onto an empty queue, each DETACHED or BLOCKING, where the
task woken for a BLOCKING entry unlinks its own entry, nothing else touches the
queue and control comes back to the dispatcher (`Quiet`): a call of
`Event_Backend_queue_flush` (with room for more than `N` iterations) returns
`N`, has dispatched exactly `L` in push order, and leaves the queue empty. -/
theorem flush_fifo (h : Host) (w0 : World) (L : List Nat) (fuel : Nat)
    (hready : w0.memory.backend.ready = none) (hwaiting : w0.memory.backend.waiting = none)
    (hnd : L.Nodup) (hfresh : ∀ e ∈ L, Fresh w0.memory e)
    (hquiet : Quiet h w0.memory w0.clock L) (hfuel : L.length < fuel) :
    ∃ w1 : World,
      Event_Backend_queue_flush h fuel { w0 with memory := L.foldl queue_push w0.memory } =
        some (.ok L.length, w1) ∧
      w1.dispatched = w0.dispatched ++ L ∧
      w1.memory.backend.ready = none ∧ w1.memory.backend.waiting = none ∧
      Represents w1.memory [] := by
  have h0 : Represents w0.memory [] :=
    ⟨List.nodup_nil, hready, hwaiting, by intro i a hi; simp at hi, by intro i a hi; simp at hi⟩
  have hrep : Represents (L.foldl queue_push w0.memory) L := by
    simpa using foldl_queue_push_represents L [] w0.memory h0 (by simpa using hnd) hfresh
  obtain ⟨w1, h1, h2, h3⟩ := flush_drain h w0.memory
    { w0 with memory := L.foldl queue_push w0.memory } L [] fuel hrep
    (fun a _ => foldl_queue_push_entry L w0.memory a)
    (pushOnly_drain h _ _ _ _ _ (quiet_pushOnly h _ L [] _ hquiet)) hfuel
  exact ⟨w1, h1, h2, by simpa using h3.ready, by simpa using h3.waiting, h3⟩

/-- Witness of C1: the BLOCKING entry 1 and the DETACHED entry 2 (whose fiber
is dead) are pushed on the empty queue and flushed. -/
theorem flush_fifo_witness :
    ∃ w1 : World,
      Event_Backend_queue_flush Host.quiet 3
        { World.start Memory.two_fresh with
          memory := [1, 2].foldl queue_push (World.start Memory.two_fresh).memory } =
        some (.ok [1, 2].length, w1) ∧
      w1.dispatched = (World.start Memory.two_fresh).dispatched ++ [1, 2] ∧
      w1.memory.backend.ready = none ∧ w1.memory.backend.waiting = none ∧
      Represents w1.memory [] :=
  flush_fifo Host.quiet (World.start Memory.two_fresh) [1, 2] 3 rfl rfl (by decide)
    (by intro e he; simp at he; rcases he with rfl | rfl <;> exact ⟨rfl, rfl⟩)
    (by simp [Quiet, World.start, Memory.two_fresh, Host.quiet, EVENT_BACKEND_QUEUE_FIBER,
      EVENT_BACKEND_QUEUE_INTERNAL])
    (by decide)

/-- C2: bounded drain when woken tasks only push.  On a well-formed queue `L`
of `n` entries, if the tasks woken during the call only push new entries (and,
for a BLOCKING entry, first unlink their own entry), then
`Event_Backend_queue_flush` returns `n`, has dispatched exactly `L` in order,
and leaves the queue holding exactly the entries pushed during the call, in
push order (`P`); under the same condition a following flush dispatches
exactly `P` and returns its length. -/
theorem flush_bounded_drain (h : Host) (w : World) (L P : List Nat) (fuel : Nat)
    (hrep : Represents w.memory L) (hpush : PushOnly h w.memory w.clock L [] P)
    (hfuel : L.length < fuel) :
    ∃ w1 : World,
      Event_Backend_queue_flush h fuel w = some (.ok L.length, w1) ∧
      w1.dispatched = w.dispatched ++ L ∧
      Represents w1.memory P ∧ traversal w1.memory P.length = P ∧
      ∀ (P2 : List Nat) (fuel2 : Nat),
        PushOnly h w1.memory w1.clock P [] P2 → P.length < fuel2 →
        ∃ w2 : World,
          Event_Backend_queue_flush h fuel2 w1 = some (.ok P.length, w2) ∧
          w2.dispatched = w.dispatched ++ L ++ P ∧ Represents w2.memory P2 := by
  obtain ⟨w1, h1, h2, h3⟩ := flush_drain h w.memory w L P fuel hrep
    (fun a _ => ⟨rfl, rfl⟩) (pushOnly_drain h _ _ _ _ _ hpush) hfuel
  refine ⟨w1, h1, h2, h3, h3.traversal_eq (le_refl _), ?_⟩
  intro P2 fuel2 hpush2 hfuel2
  obtain ⟨w2, k1, k2, k3⟩ := flush_drain h w1.memory w1 P P2 fuel2 h3
    (fun a _ => ⟨rfl, rfl⟩) (pushOnly_drain h _ _ _ _ _ hpush2) hfuel2
  exact ⟨w2, k1, by rw [k2, h2], k3⟩

theorem two_detached_represents : Represents World.two_detached.memory [1, 2] :=
  push_run_represents (L := [1])
    (push_run_represents (L := []) represents_empty (by simp) EVENT_BACKEND_QUEUE_INTERNAL 11)
    (by simp) EVENT_BACKEND_QUEUE_INTERNAL 12

/-- Witness of C2: push A (entry 1) and B (entry 2); during the dispatch of A
the entry C (entry 3) is pushed.  The flush returns 2 having dispatched A, B
and leaves the queue `[C]`; the next flush returns 1 having dispatched C (the
dispatch log of the run then reads A, B, C). -/
theorem flush_bounded_drain_witness :
    (∃ w1 : World,
      Event_Backend_queue_flush Host.pushing 3 World.two_detached = some (.ok 2, w1) ∧
      w1.dispatched = [1, 2] ∧ Represents w1.memory [3]) ∧
    ((Event_Backend_queue_flush Host.pushing 3 World.two_detached).bind
      (fun r => Event_Backend_queue_flush Host.pushing 2 r.2)).map
        (fun r => (r.1, r.2.dispatched)) = some (.ok 1, [1, 2, 3]) := by
  constructor
  · obtain ⟨w1, h1, h2, h3, _⟩ := flush_bounded_drain Host.pushing World.two_detached [1, 2] [3] 3
      two_detached_represents
      (by
        simp only [PushOnly]
        refine ⟨Qnil, [(3, EVENT_BACKEND_QUEUE_INTERNAL, 13)], rfl,
          by simp [Admissible, pushes, Action.members], ?_⟩
        exact ⟨Qnil, [], rfl, trivial, rfl⟩)
      (by decide)
    exact ⟨w1, h1, h2, h3⟩
  · rfl

theorem two_blocking_represents : Represents World.two_blocking.memory [1, 2] :=
  push_run_represents (L := [1])
    (push_run_represents (L := []) represents_empty (by simp) EVENT_BACKEND_QUEUE_FIBER 11)
    (by simp) EVENT_BACKEND_QUEUE_FIBER 12

theorem push_run_flags (m : Memory) (e flags : Nat) (fiber : VALUE) :
    ((Action.run m (.push e flags fiber)).entry e).flags = flags ∧
    ((Action.run m (.push e flags fiber)).entry e).fiber = fiber := by
  simp [Action.run, queue_push_flags, queue_push_fiber]

theorem relentless_loop : ∀ (fuel count k : Nat) (w : World),
    1 ≤ k → w.clock = k → Represents w.memory [k + 2] →
    (w.memory.entry (k + 2)).flags = EVENT_BACKEND_QUEUE_INTERNAL →
    flush_loop Host.relentless (some 2) fuel count w = none := by
  intro fuel
  induction fuel with
  | zero => intro count k w _ _ _ _; rfl
  | succ fuel ih =>
    intro count k w hk hclock hrep hflags
    have hready : w.memory.backend.ready = some (k + 2) := by simpa using hrep.ready
    have hpop : Represents (queue_pop w.memory (k + 2)) [] := by
      simpa using queue_pop_represents hrep (List.mem_singleton_self _)
    have hk0 : ¬ (k = 0) := by omega
    have hne : ¬ (k + 2 = 2) := by omega
    have hdet : ¬ ((w.memory.entry (k + 2)).flags &&& EVENT_BACKEND_QUEUE_FIBER ≠ 0) := by
      rw [hflags]; decide
    have hnext := ih (count + 1) (k + 1)
      { memory := Action.run (queue_pop w.memory (k + 2))
          (.push (k + 3) EVENT_BACKEND_QUEUE_INTERNAL 13),
        clock := k + 1,
        transfers := w.transfers ++ [.transfer (w.memory.entry (k + 2)).fiber []],
        dispatched := w.dispatched ++ [k + 2] }
      (by omega) rfl
      (push_run_represents (L := []) hpop (by simp) EVENT_BACKEND_QUEUE_INTERNAL 13)
      (push_run_flags _ _ _ _).1
    simp only [flush_loop, hready, Event_Backend_queue_pop, if_neg hdet,
      Event_Backend_fiber_transfer, Host.switch, Host.relentless, hclock, if_neg hk0,
      Except.map, List.foldl_cons, List.foldl_nil, if_true, Option.some.injEq, if_neg hne]
    exact hnext

/-- C3 fails on the code: the boundary of the drain can be unlinked before
the drain reaches it.  The queue `[1, 2]` of two BLOCKING entries is well
formed (`n = 2`), and the operations performed during the dispatch of entry 1
under `Host.resuming` are unlinks of members and pushes of non-members; yet
the flush returns 3 and dispatches the entries 3 and 4 that were pushed during
the call.  Under `Host.relentless`, where each woken task pushes one more
entry, the loop does not end within any number of iterations. -/
theorem flush_passes_boundary :
    Represents World.two_blocking.memory [1, 2] ∧
    Admissible [] [1, 2] (Host.resuming.respond World.two_blocking.clock).actions ∧
    (Event_Backend_queue_flush Host.resuming 5 World.two_blocking).map
      (fun r => (r.1, r.2.dispatched)) = some (.ok 3, [1, 3, 4]) ∧
    Admissible [] [1, 2] (Host.relentless.respond World.two_blocking.clock).actions ∧
    ∀ fuel : Nat, Event_Backend_queue_flush Host.relentless fuel World.two_blocking = none := by
  refine ⟨two_blocking_represents, ?_, rfl, ?_, ?_⟩
  · simp [Admissible, Action.members, Host.resuming, World.two_blocking, World.start]
  · simp [Admissible, Action.members, Host.relentless, World.two_blocking, World.start]
  · intro fuel
    cases fuel with
    | zero => rfl
    | succ fuel =>
      have hrep := two_blocking_represents
      have hready : World.two_blocking.memory.backend.ready = some 1 := by
        simpa using hrep.ready
      have hwaiting : World.two_blocking.memory.backend.waiting = some 2 := by
        simpa using hrep.waiting
      have hflag : (World.two_blocking.memory.entry 1).flags &&& EVENT_BACKEND_QUEUE_FIBER ≠ 0 := by
        decide
      have hpop1 : Represents (queue_pop World.two_blocking.memory 1) [2] := by
        simpa using queue_pop_represents hrep (by simp : 1 ∈ [1, 2])
      have hpop2 : Represents (queue_pop (queue_pop World.two_blocking.memory 1) 2) [] := by
        simpa using queue_pop_represents hpop1 (by simp : 2 ∈ [2])
      have hnext := relentless_loop fuel 1 1
        { memory := Action.run (queue_pop (queue_pop World.two_blocking.memory 1) 2)
            (.push 3 EVENT_BACKEND_QUEUE_INTERNAL 13),
          clock := 1,
          transfers := World.two_blocking.transfers ++
            [.transfer (World.two_blocking.memory.entry 1).fiber []],
          dispatched := World.two_blocking.dispatched ++ [1] }
        (le_refl 1) rfl
        (push_run_represents (L := []) hpop2 (by simp) EVENT_BACKEND_QUEUE_INTERNAL 13)
        (push_run_flags (queue_pop (queue_pop World.two_blocking.memory 1) 2) 3
          EVENT_BACKEND_QUEUE_INTERNAL 13).1
      have hclock : World.two_blocking.clock = 0 := rfl
      unfold Event_Backend_queue_flush
      rw [hwaiting]
      simp only [flush_loop, hready, Event_Backend_queue_pop, if_pos hflag,
        Event_Backend_fiber_transfer, Host.switch, Host.relentless, hclock, if_true,
        Except.map, List.foldl_cons, List.foldl_nil, Action.run, Option.some.injEq]
      simpa [Action.run] using hnext

/-! ## Descriptor flags -/

theorem nat_ldiff_self (n : Nat) : Nat.ldiff n n = 0 := by
  apply Nat.eq_of_testBit_eq
  intro i
  rw [Nat.testBit_ldiff]
  simp

theorem int_land_lnot_self (f : Int) : Int.land f (Int.lnot f) = 0 := by
  cases f with
  | ofNat n =>
    show Int.land (Int.ofNat n) (Int.negSucc n) = 0
    simp [Int.land, nat_ldiff_self]
  | negSucc n =>
    show Int.land (Int.negSucc n) (Int.ofNat n) = 0
    simp [Int.land, nat_ldiff_self]

theorem int_zero_land (x : Int) : Int.land 0 x = 0 := by
  cases x with
  | ofNat n =>
    show Int.land (Int.ofNat 0) (Int.ofNat n) = 0
    simp [Int.land]
  | negSucc n =>
    show Int.land (Int.ofNat 0) (Int.negSucc n) = 0
    simp only [Int.land]
    have : Nat.ldiff 0 n = 0 := by
      apply Nat.eq_of_testBit_eq
      intro i
      rw [Nat.testBit_ldiff]
      simp
    simp [this]

/-- C10: descriptor flag round trip.  For every initial flag word of the
descriptor (with the `O_NONBLOCK` bit set or clear), after
`Event_Backend_nonblock_restore(d, Event_Backend_nonblock_set(d))` the
`O_NONBLOCK` bit of the descriptor's flags equals its initial value, and the
flags of the other descriptors are untouched. -/
theorem nonblock_round_trip (O_NONBLOCK : Int) (d : Descriptors) (file_descriptor : Int) :
    let r := Event_Backend_nonblock_set O_NONBLOCK d file_descriptor
    let after := Event_Backend_nonblock_restore O_NONBLOCK r.2 file_descriptor r.1
    Int.land (fcntl_GETFL after file_descriptor) O_NONBLOCK =
      Int.land (fcntl_GETFL d file_descriptor) O_NONBLOCK ∧
    ∀ other, other ≠ file_descriptor → fcntl_GETFL after other = fcntl_GETFL d other := by
  intro r after
  by_cases hbit : Int.land (d file_descriptor) O_NONBLOCK = 0
  · have hafter : after = fcntl_SETFL (fcntl_SETFL d file_descriptor
        (Int.lor (d file_descriptor) O_NONBLOCK)) file_descriptor
        (Int.land (d file_descriptor) (Int.lnot (d file_descriptor))) := by
      simp [after, r, Event_Backend_nonblock_set, Event_Backend_nonblock_restore,
        fcntl_GETFL, hbit]
    rw [hafter]
    constructor
    · simp [fcntl_GETFL, fcntl_SETFL, int_land_lnot_self, int_zero_land, hbit]
    · intro other hother
      simp [fcntl_GETFL, fcntl_SETFL, hother]
  · have hafter : after = d := by
      simp [after, r, Event_Backend_nonblock_set, Event_Backend_nonblock_restore,
        fcntl_GETFL, hbit]
    rw [hafter]
    exact ⟨rfl, fun _ _ => rfl⟩

/-! ## Elapsed time -/

/-- C12: the fraction of the elapsed time is normalised.  For timestamps whose
`tv_nsec` fields lie in `[0, 1000000000)`, the `tv_nsec` of the duration
written by `Event_Backend_elapsed_time` lies in `[0, 1000000000)`. -/
theorem elapsed_time_normalised (start stop : timespec)
    (hstart : 0 ≤ start.tv_nsec ∧ start.tv_nsec < 1000000000)
    (hstop : 0 ≤ stop.tv_nsec ∧ stop.tv_nsec < 1000000000) :
    0 ≤ (Event_Backend_elapsed_time start stop).tv_nsec ∧
    (Event_Backend_elapsed_time start stop).tv_nsec < 1000000000 := by
  unfold Event_Backend_elapsed_time
  split_ifs with h
  · constructor <;> simp only <;> omega
  · constructor <;> simp only <;> omega

/-- Witness of C12: from (10 s, 900000000 ns) to (11 s, 100000000 ns) the
elapsed time is (0 s, 200000000 ns). -/
theorem elapsed_time_normalised_witness :
    Event_Backend_elapsed_time { tv_sec := 10, tv_nsec := 900000000 }
      { tv_sec := 11, tv_nsec := 100000000 } = { tv_sec := 0, tv_nsec := 200000000 } ∧
    0 ≤ (Event_Backend_elapsed_time { tv_sec := 10, tv_nsec := 900000000 }
      { tv_sec := 11, tv_nsec := 100000000 }).tv_nsec ∧
    (Event_Backend_elapsed_time { tv_sec := 10, tv_nsec := 900000000 }
      { tv_sec := 11, tv_nsec := 100000000 }).tv_nsec < 1000000000 :=
  ⟨by decide,
    elapsed_time_normalised { tv_sec := 10, tv_nsec := 900000000 }
      { tv_sec := 11, tv_nsec := 100000000 } (by decide) (by decide)⟩

/-- C13: the elapsed time is the exact difference.  For all timestamps (over
the integers), the duration written by `Event_Backend_elapsed_time` satisfies
`tv_sec * 1000000000 + tv_nsec = stop - start` in nanoseconds, and its
`tv_sec` is `stop.tv_sec - start.tv_sec` less one second borrowed exactly when
`stop.tv_nsec < start.tv_nsec`. -/
theorem elapsed_time_exact (start stop : timespec) :
    (Event_Backend_elapsed_time start stop).tv_sec * 1000000000 +
        (Event_Backend_elapsed_time start stop).tv_nsec =
      (stop.tv_sec * 1000000000 + stop.tv_nsec) -
        (start.tv_sec * 1000000000 + start.tv_nsec) ∧
    (Event_Backend_elapsed_time start stop).tv_sec =
      stop.tv_sec - start.tv_sec - (if stop.tv_nsec < start.tv_nsec then 1 else 0) ∧
    (Event_Backend_elapsed_time start stop).tv_nsec =
      stop.tv_nsec - start.tv_nsec +
        (if stop.tv_nsec < start.tv_nsec then 1000000000 else 0) := by
  unfold Event_Backend_elapsed_time
  by_cases h : stop.tv_nsec - start.tv_nsec < 0
  · have h' : stop.tv_nsec < start.tv_nsec := by omega
    rw [if_pos h, if_pos h', if_pos h']
    exact ⟨by ring, rfl, rfl⟩
  · have h' : ¬ stop.tv_nsec < start.tv_nsec := by omega
    rw [if_neg h, if_neg h', if_neg h']
    exact ⟨by ring, by ring, by ring⟩

/-! ## The non-blocking bit -/

theorem nat_testBit_of_land_two_pow {n k : Nat} (h : n &&& 2 ^ k ≠ 0) :
    n.testBit k = true := by
  obtain ⟨i, hi⟩ := Nat.ne_zero_implies_bit_true h
  rw [Nat.testBit_and, Nat.testBit_two_pow] at hi
  by_cases hki : k = i
  · subst hki; simpa using hi
  · simp [hki] at hi

theorem nat_lor_two_pow_of_testBit {n k : Nat} (h : n.testBit k = true) :
    n ||| 2 ^ k = n := by
  apply Nat.eq_of_testBit_eq
  intro i
  rw [Nat.testBit_or, Nat.testBit_two_pow]
  by_cases hki : k = i
  · subst hki; simp [h]
  · simp [hki]

theorem nat_ldiff_two_pow_ne_zero {n k : Nat} (h : Nat.ldiff (2 ^ k) n ≠ 0) :
    n.testBit k = false := by
  obtain ⟨i, hi⟩ := Nat.ne_zero_implies_bit_true h
  rw [Nat.testBit_ldiff, Nat.testBit_two_pow] at hi
  by_cases hki : k = i
  · subst hki; simpa using hi
  · simp [hki] at hi

theorem nat_ldiff_two_pow_of_testBit {n k : Nat} (h : n.testBit k = false) :
    Nat.ldiff n (2 ^ k) = n := by
  apply Nat.eq_of_testBit_eq
  intro i
  rw [Nat.testBit_ldiff, Nat.testBit_two_pow]
  by_cases hki : k = i
  · subst hki; simp [h]
  · simp [hki]

theorem nat_two_pow_ldiff_of_testBit {n k : Nat} (h : n.testBit k = false) :
    Nat.ldiff (2 ^ k) n = 2 ^ k := by
  apply Nat.eq_of_testBit_eq
  intro i
  rw [Nat.testBit_ldiff, Nat.testBit_two_pow]
  by_cases hki : k = i
  · subst hki; simp [h]
  · simp [hki]

theorem int_lor_bit_of_land_ne_zero (f : Int) (k : Nat)
    (h : Int.land f ((2 ^ k : Nat) : Int) ≠ 0) : Int.lor f ((2 ^ k : Nat) : Int) = f := by
  cases f with
  | ofNat n =>
    have hn : n &&& 2 ^ k ≠ 0 := by
      intro hc; apply h
      show Int.land (Int.ofNat n) (Int.ofNat (2 ^ k)) = 0
      simp [Int.land, hc]
    show Int.lor (Int.ofNat n) (Int.ofNat (2 ^ k)) = Int.ofNat n
    simp only [Int.lor]
    rw [nat_lor_two_pow_of_testBit (nat_testBit_of_land_two_pow hn)]
    rfl
  | negSucc n =>
    have hn : Nat.ldiff (2 ^ k) n ≠ 0 := by
      intro hc; apply h
      show Int.land (Int.negSucc n) (Int.ofNat (2 ^ k)) = 0
      simp [Int.land, hc]
    show Int.lor (Int.negSucc n) (Int.ofNat (2 ^ k)) = Int.negSucc n
    simp only [Int.lor]
    rw [nat_ldiff_two_pow_of_testBit (nat_ldiff_two_pow_ne_zero hn)]

theorem int_land_lor_bit (f : Int) (k : Nat) :
    Int.land (Int.lor f ((2 ^ k : Nat) : Int)) ((2 ^ k : Nat) : Int) =
      ((2 ^ k : Nat) : Int) := by
  cases f with
  | ofNat n =>
    show Int.land (Int.lor (Int.ofNat n) (Int.ofNat (2 ^ k))) (Int.ofNat (2 ^ k)) = _
    simp only [Int.lor, Int.land]
    have : (n ||| 2 ^ k) &&& 2 ^ k = 2 ^ k := by
      apply Nat.eq_of_testBit_eq
      intro i
      rw [Nat.testBit_and, Nat.testBit_or, Nat.testBit_two_pow]
      by_cases hki : k = i <;> simp [hki]
    simp [this]
  | negSucc n =>
    show Int.land (Int.lor (Int.negSucc n) (Int.ofNat (2 ^ k))) (Int.ofNat (2 ^ k)) = _
    simp only [Int.lor, Int.land]
    have hbit : (Nat.ldiff n (2 ^ k)).testBit k = false := by
      rw [Nat.testBit_ldiff, Nat.testBit_two_pow]; simp
    rw [nat_two_pow_ldiff_of_testBit hbit]

/-- C11 fails on the code.  When the previous flags `p` do not have the
`O_NONBLOCK` bit, `Event_Backend_nonblock_restore` stores `p & ~p`, which is
0, whatever the current flags are: every bit of the flag word is cleared.
When `p` has the bit, nothing is stored.  On a descriptor whose current flags
are `O_WRONLY | O_APPEND | O_NONBLOCK` (3073 on Linux, `O_NONBLOCK` = 2048),
restoring with `p = O_WRONLY | O_APPEND` (1025) stores 0: the `O_APPEND` bit
(1024), set before, is clear afterwards. -/
theorem nonblock_restore_overwrites :
    (∀ (O_NONBLOCK : Int) (d : Descriptors) (file_descriptor p : Int),
      Int.land p O_NONBLOCK = 0 →
      fcntl_GETFL (Event_Backend_nonblock_restore O_NONBLOCK d file_descriptor p)
        file_descriptor = 0) ∧
    (∀ (O_NONBLOCK : Int) (d : Descriptors) (file_descriptor p : Int),
      Int.land p O_NONBLOCK ≠ 0 →
      Event_Backend_nonblock_restore O_NONBLOCK d file_descriptor p = d) ∧
    Int.land 1025 2048 = 0 ∧
    fcntl_GETFL Descriptors.appending 5 = Int.lor 1025 2048 ∧
    fcntl_GETFL (Event_Backend_nonblock_restore 2048 Descriptors.appending 5 1025) 5 = 0 ∧
    Int.land (fcntl_GETFL Descriptors.appending 5) 1024 = 1024 ∧
    Int.land (fcntl_GETFL (Event_Backend_nonblock_restore 2048 Descriptors.appending 5 1025) 5)
      1024 = 0 := by
  have hzero : ∀ (O_NONBLOCK : Int) (d : Descriptors) (file_descriptor p : Int),
      Int.land p O_NONBLOCK = 0 →
      fcntl_GETFL (Event_Backend_nonblock_restore O_NONBLOCK d file_descriptor p)
        file_descriptor = 0 := by
    intro O d fd p hp
    simp [Event_Backend_nonblock_restore, hp, fcntl_GETFL, fcntl_SETFL, int_land_lnot_self]
  have h5 := hzero 2048 Descriptors.appending 5 1025 (by decide)
  refine ⟨hzero, ?_, by decide, by decide, h5, by decide, ?_⟩
  · intro O d fd p hp
    simp [Event_Backend_nonblock_restore, hp]
  · rw [h5]; decide

/-- C16: `Event_Backend_nonblock_set` returns the prior flags and only adds
the non-blocking bit.  With `O_NONBLOCK` the single bit `2 ^ k`, for every
initial flag word `f` of the descriptor the call returns `f` and leaves the
descriptor's flags equal to `f | O_NONBLOCK`; the other descriptors are
untouched; nothing is stored when the bit was already set; and a second call
returns `f | O_NONBLOCK` and leaves the flags as the first call left them. -/
theorem nonblock_set_adds_bit (k : Nat) (d : Descriptors) (file_descriptor : Int) :
    let r := Event_Backend_nonblock_set ((2 ^ k : Nat) : Int) d file_descriptor
    let again := Event_Backend_nonblock_set ((2 ^ k : Nat) : Int) r.2 file_descriptor
    r.1 = fcntl_GETFL d file_descriptor ∧
    fcntl_GETFL r.2 file_descriptor =
      Int.lor (fcntl_GETFL d file_descriptor) ((2 ^ k : Nat) : Int) ∧
    (∀ other, other ≠ file_descriptor → fcntl_GETFL r.2 other = fcntl_GETFL d other) ∧
    (Int.land (fcntl_GETFL d file_descriptor) ((2 ^ k : Nat) : Int) ≠ 0 → r.2 = d) ∧
    again.1 = Int.lor (fcntl_GETFL d file_descriptor) ((2 ^ k : Nat) : Int) ∧
    again.2 = r.2 := by
  intro r again
  have hpow : (((2 ^ k : Nat) : Int)) ≠ 0 := by
    have : (2 ^ k : Nat) ≠ 0 := by positivity
    exact_mod_cast this
  have hflags : fcntl_GETFL r.2 file_descriptor =
      Int.lor (fcntl_GETFL d file_descriptor) ((2 ^ k : Nat) : Int) := by
    by_cases hbit : Int.land (d file_descriptor) ((2 ^ k : Nat) : Int) = 0
    · simp only [r, Event_Backend_nonblock_set, fcntl_GETFL, if_pos hbit, fcntl_SETFL]
      rw [if_pos trivial]
    · simp only [r, Event_Backend_nonblock_set, fcntl_GETFL, if_neg hbit]
      exact (int_lor_bit_of_land_ne_zero _ k hbit).symm
  have hset : Int.land (fcntl_GETFL r.2 file_descriptor) ((2 ^ k : Nat) : Int) ≠ 0 := by
    rw [hflags, int_land_lor_bit]; exact hpow
  refine ⟨?_, hflags, ?_, ?_, ?_, ?_⟩
  · simp only [r, Event_Backend_nonblock_set]
    split_ifs <;> rfl
  · intro other hother
    simp only [r, Event_Backend_nonblock_set, fcntl_GETFL]
    split_ifs
    · simp [fcntl_SETFL, hother]
    · rfl
  · intro hbit
    simp only [r, Event_Backend_nonblock_set]
    rw [if_neg hbit]
  · rw [← hflags]
    simp only [again, Event_Backend_nonblock_set]
    split_ifs <;> rfl
  · simp only [again, Event_Backend_nonblock_set]
    rw [if_neg hset]

/-! ## Preconditions of the suspend calls -/

/-- C14 fails on the code: the arity check is not given `argc`.  Both suspend
calls pass the check whatever `argv` is, so a call of
`Event_Backend_wait_and_transfer` with `argc = 0`, and a call of
`Event_Backend_wait_and_raise` with any `argc`, `argc < 2` included, does not
return the arity error: it pushes the caller's entry (on a well-formed queue
`L` the queue handed on is `L ++ [self]`) and goes on to the control transfer,
of which the log then holds one more. -/
theorem arity_check_ignores_argc (h : Host) (w : World) (self : Nat) (current : VALUE)
    (argv : List VALUE) :
    let pushed := queue_push (w.memory.store self
      { behind := none, infront := none, flags := EVENT_BACKEND_QUEUE_FIBER,
        fiber := current }) self
    let published : World := { w with memory := pushed }
    let r := Event_Backend_wait_and_transfer h w self current []
    let r' := Event_Backend_wait_and_raise h w self current argv
    rb_check_arity 1 UNLIMITED_ARGUMENTS = none ∧
    rb_check_arity 2 UNLIMITED_ARGUMENTS = none ∧
    r = rb_ensure (wait_and_transfer h { argv := [], waiting := self })
      (wait_and_transfer_ensure { argv := [], waiting := self }) published ∧
    r' = rb_ensure (wait_and_raise h { argv := argv, waiting := self })
      (wait_and_transfer_ensure { argv := argv, waiting := self }) published ∧
    (∀ given required, r.1 ≠ .error (.arity given required)) ∧
    (∀ given required, r'.1 ≠ .error (.arity given required)) ∧
    r.2.transfers.length = w.transfers.length + 1 ∧
    r'.2.transfers.length = w.transfers.length + 1 ∧
    (∀ L : List Nat, Represents w.memory L → self ∉ L →
      Represents published.memory (L ++ [self])) := by
  intro pushed published r r'
  have hr : r = rb_ensure (wait_and_transfer h { argv := [], waiting := self })
      (wait_and_transfer_ensure { argv := [], waiting := self }) published := by
    simp [r, published, pushed, Event_Backend_wait_and_transfer]
  have hr' : r' = rb_ensure (wait_and_raise h { argv := argv, waiting := self })
      (wait_and_transfer_ensure { argv := argv, waiting := self }) published := by
    simp [r', published, pushed, Event_Backend_wait_and_raise]
  refine ⟨rb_check_arity_one, rb_check_arity_two, hr, hr', ?_, ?_, ?_, ?_, ?_⟩
  · intro given required
    rw [hr]
    simp only [rb_ensure, wait_and_transfer, Event_Backend_fiber_transfer, Host.switch]
    cases (h.respond published.clock).result <;> simp
  · intro given required
    rw [hr']
    simp only [rb_ensure, wait_and_raise, Event_Backend_fiber_raise, Host.switch]
    cases (h.respond published.clock).result <;> simp
  · rw [hr]
    simp [rb_ensure, wait_and_transfer, Event_Backend_fiber_transfer, Host.switch,
      wait_and_transfer_ensure, published]
  · rw [hr']
    simp [rb_ensure, wait_and_raise, Event_Backend_fiber_raise, Host.switch,
      wait_and_transfer_ensure, published]
  · intro L hw hself
    exact push_run_represents hw hself EVENT_BACKEND_QUEUE_FIBER current

/-- C17: the suspending task is published before control is handed off.  On a
well-formed queue `L`, with the caller's entry at a fresh address `self` and
arguments `target :: rest`, the control transfer of
`Event_Backend_wait_and_transfer` is performed in the state `published`, whose
queue is `L ++ [self]` with `self` a BLOCKING entry (flags
`EVENT_BACKEND_QUEUE_FIBER`) referencing the calling fiber; the transfer
targets `target` and is passed exactly `rest`. -/
theorem suspend_publishes_first (h : Host) (w : World) (L : List Nat) (self : Nat)
    (current target : VALUE) (rest : List VALUE)
    (hw : Represents w.memory L) (hself : self ∉ L) :
    let pushed := queue_push (w.memory.store self
      { behind := none, infront := none, flags := EVENT_BACKEND_QUEUE_FIBER,
        fiber := current }) self
    let published : World := { w with memory := pushed }
    let handed := Event_Backend_fiber_transfer h published target rest
    let r := Event_Backend_wait_and_transfer h w self current (target :: rest)
    Represents published.memory (L ++ [self]) ∧
    traversal published.memory (L.length + 1) = L ++ [self] ∧
    (published.memory.entry self).flags = EVENT_BACKEND_QUEUE_FIBER ∧
    (published.memory.entry self).fiber = current ∧
    published.transfers = w.transfers ∧
    r.1 = handed.1 ∧
    r.2 = { handed.2 with memory := queue_pop handed.2.memory self } ∧
    r.2.transfers = w.transfers ++ [.transfer target rest] := by
  intro pushed published handed r
  have hp : Represents published.memory (L ++ [self]) :=
    push_run_represents hw hself EVENT_BACKEND_QUEUE_FIBER current
  refine ⟨hp, hp.traversal_eq (by simp), ?_, ?_, rfl, ?_, ?_, ?_⟩
  · simp [published, pushed, queue_push_flags]
  · simp [published, pushed, queue_push_fiber]
  · simp [r, handed, published, pushed, Event_Backend_wait_and_transfer, rb_ensure,
      wait_and_transfer]
  · simp [r, handed, published, pushed, Event_Backend_wait_and_transfer, rb_ensure,
      wait_and_transfer, wait_and_transfer_ensure]
  · simp [r, Event_Backend_wait_and_transfer, rb_ensure, wait_and_transfer,
      wait_and_transfer_ensure, Event_Backend_fiber_transfer, Host.switch]

/-- Witness of C17: fiber 3 suspends on the empty queue with entry 7,
transferring into fiber 9 with the arguments 4 and 5. -/
theorem suspend_publishes_first_witness :
    Represents (queue_push ((World.start Memory.empty).memory.store 7
      { behind := none, infront := none, flags := EVENT_BACKEND_QUEUE_FIBER,
        fiber := 3 }) 7) ([] ++ [7]) ∧
    (Event_Backend_wait_and_transfer (Host.returning 42) (World.start Memory.empty) 7 3
      [9, 4, 5]).2.transfers = (World.start Memory.empty).transfers ++ [.transfer 9 [4, 5]] :=
  have r := suspend_publishes_first (Host.returning 42) (World.start Memory.empty) [] 7 3 9
    [4, 5] represents_empty (by simp)
  ⟨r.1, r.2.2.2.2.2.2.2⟩

/-- C18: the dispatcher never unlinks a BLOCKING entry.  For an entry with the
`EVENT_BACKEND_QUEUE_FIBER` flag, `Event_Backend_queue_pop` is one control
transfer into the entry's fiber with no arguments and nothing else: the world
afterwards is the world the transfer left, its memory is the memory before
with the operations of the other fibers applied; when these do nothing the
memory is unchanged and the entry is still a member, and when the woken task
unlinks the entry (its `wait_and_transfer_ensure`) the queue is `L.erase e`. -/
theorem dispatch_blocking (h : Host) (w : World) (e : Nat)
    (hflag : (w.memory.entry e).flags &&& EVENT_BACKEND_QUEUE_FIBER ≠ 0) :
    let fiber := (w.memory.entry e).fiber
    let r := Event_Backend_queue_pop h w e
    r.2 = (Event_Backend_fiber_transfer h w fiber []).2 ∧
    r.2.transfers = w.transfers ++ [.transfer fiber []] ∧
    r.2.memory = (h.respond w.clock).actions.foldl Action.run w.memory ∧
    ((h.respond w.clock).actions = [] → r.2.memory = w.memory) ∧
    (∀ L : List Nat, Represents w.memory L → e ∈ L →
      ((h.respond w.clock).actions = [] → Represents r.2.memory L) ∧
      ((h.respond w.clock).actions = [.unlink e] →
        r.2.memory = (wait_and_transfer_ensure { argv := [], waiting := e } w).2.memory ∧
        Represents r.2.memory (L.erase e))) := by
  intro fiber r
  have hmem : r.2.memory = (h.respond w.clock).actions.foldl Action.run w.memory := by
    simp [r, Event_Backend_queue_pop, hflag, Event_Backend_fiber_transfer, Host.switch]
  refine ⟨?_, ?_, hmem, ?_, ?_⟩
  · simp [r, fiber, Event_Backend_queue_pop, hflag]
  · simp [r, fiber, Event_Backend_queue_pop, hflag, Event_Backend_fiber_transfer, Host.switch]
  · intro hnone
    rw [hmem, hnone]; rfl
  · intro L hrep he
    constructor
    · intro hnone
      rw [hmem, hnone]; exact hrep
    · intro hone
      have : r.2.memory = queue_pop w.memory e := by
        rw [hmem, hone]; rfl
      exact ⟨by rw [this]; rfl, by rw [this]; exact queue_pop_represents hrep he⟩

/-- Witness of C18: the dispatch of the BLOCKING entry 1 of the queue `[1, 2]`
when the woken task transfers straight back. -/
theorem dispatch_blocking_witness :
    (Event_Backend_queue_pop Host.dead World.two_blocking 1).2.transfers =
      World.two_blocking.transfers ++ [.transfer (World.two_blocking.memory.entry 1).fiber []] ∧
    (Event_Backend_queue_pop Host.dead World.two_blocking 1).2.memory =
      World.two_blocking.memory :=
  have r := dispatch_blocking Host.dead World.two_blocking 1 (by decide)
  ⟨r.2.1, r.2.2.2.1 rfl⟩

/-! ## Push followed by unlink, and unlink of a non-member -/

theorem entry_eq {x y : Event_Backend_Queue} (h1 : x.behind = y.behind)
    (h2 : x.infront = y.infront) (h3 : x.flags = y.flags) (h4 : x.fiber = y.fiber) :
    x = y := by
  cases x; cases y; simp_all

theorem backend_eq {x y : Event_Backend} (h1 : x.ready = y.ready)
    (h2 : x.waiting = y.waiting) : x = y := by
  cases x; cases y; simp_all

theorem push_pop_restores {m : Memory} {L : List Nat} {e : Nat}
    (h : Represents m L) (hne : e ∉ L) (hfresh : Fresh m e) :
    (queue_pop (queue_push m e) e).backend = m.backend ∧
    (∀ a, a ≠ e → (queue_pop (queue_push m e) e).entry a = m.entry a) ∧
    ((queue_pop (queue_push m e) e).entry e).behind = none ∧
    ((queue_pop (queue_push m e) e).entry e).flags = (m.entry e).flags ∧
    ((queue_pop (queue_push m e) e).entry e).fiber = (m.entry e).fiber := by
  have hw : m.backend.waiting ≠ some e := by
    intro hc
    rw [h.waiting] at hc
    exact hne (List.mem_of_getLast?_eq_some hc)
  have hpb : ((queue_push m e).entry e).behind = none := by
    rw [queue_push_behind, if_neg hw]; exact hfresh.1
  have hpf : ((queue_push m e).entry e).infront = m.backend.waiting := by
    rw [queue_push_infront]
    by_cases h0 : m.backend.waiting = none
    · simp [h0, hfresh.2]
    · simp [h0]
  have hempty : m.backend.waiting = none → m.backend.ready = none := by
    intro h0
    rw [h.waiting] at h0
    rw [h.ready, List.getLast?_eq_none_iff.mp h0]
    rfl
  have hlast : ∀ a, m.backend.waiting = some a → (m.entry a).behind = none := by
    intro a ha
    rw [h.waiting_eq] at ha
    have hlt : L.length - 1 < L.length := (List.getElem?_eq_some.mp ha).1
    rw [h.behind _ a ha]
    exact List.getElem?_eq_none (by omega)
  refine ⟨backend_eq ?_ ?_, ?_, ?_, ?_, ?_⟩
  · rw [queue_pop_ready, hpf, hpb, queue_push_ready]
    by_cases h0 : m.backend.waiting = none
    · simp [h0, hempty h0]
    · simp [h0]
  · rw [queue_pop_waiting, hpb, hpf]
    simp
  · intro a hae
    apply entry_eq
    · rw [queue_pop_behind, hpf, hpb, queue_push_behind]
      by_cases ha : m.backend.waiting = some a
      · simp [ha, hlast a ha]
      · simp [ha]
    · rw [queue_pop_infront, hpb, if_neg (by simp), queue_push_infront]
      simp [hae]
    · rw [queue_pop_flags, queue_push_flags]
    · rw [queue_pop_fiber, queue_push_fiber]
  · rw [queue_pop_behind, hpf, hpb]
    simp
  · rw [queue_pop_flags, queue_push_flags]
  · rw [queue_pop_fiber, queue_push_fiber]

/-- C19: push followed by unlink is the identity on the queue.  For a
well-formed queue and a fresh entry `e` that is not a member,
`queue_pop (queue_push q e) e` has the front and back of `q` and the record of
`q` at every entry other than `e` (so the `behind` link of the previous back is
null again), and is the well-formed queue `L` again.  Hence a call of
`Event_Backend_wait_and_transfer` during whose transfer nothing else touches
the queue leaves the front, the back and every entry other than its own as it
found them. -/
theorem push_pop_identity (m : Memory) (L : List Nat) (e : Nat)
    (h : Represents m L) (hne : e ∉ L) (hfresh : Fresh m e) :
    (queue_pop (queue_push m e) e).backend = m.backend ∧
    (∀ a, a ≠ e → (queue_pop (queue_push m e) e).entry a = m.entry a) ∧
    (∀ b, L.getLast? = some b → ((queue_push m e).entry b).behind = some e ∧
      ((queue_pop (queue_push m e) e).entry b).behind = none) ∧
    Represents (queue_pop (queue_push m e) e) L ∧
    (∀ (host : Host) (w : World) (current : VALUE) (argv : List VALUE),
      w.memory = m → 1 ≤ argv.length → (host.respond w.clock).actions = [] →
      (Event_Backend_wait_and_transfer host w e current argv).2.memory.backend = m.backend ∧
      (∀ a, a ≠ e →
        (Event_Backend_wait_and_transfer host w e current argv).2.memory.entry a =
          m.entry a) ∧
      Represents (Event_Backend_wait_and_transfer host w e current argv).2.memory L) := by
  have hr := push_pop_restores h hne hfresh
  have hrep : Represents (queue_pop (queue_push m e) e) L := by
    have := queue_pop_represents (queue_push_represents h hne hfresh)
      (by simp : e ∈ L ++ [e])
    rwa [List.erase_append_right _ hne, List.erase_cons_head, List.append_nil] at this
  refine ⟨hr.1, hr.2.1, ?_, hrep, ?_⟩
  · intro b hb
    have hbe : b ≠ e := fun hc => hne (hc ▸ List.mem_of_getLast?_eq_some hb)
    have hwb : m.backend.waiting = some b := h.waiting.trans hb
    constructor
    · rw [queue_push_behind, if_pos hwb]
    · rw [hr.2.1 b hbe, h.behind (L.length - 1) b (by rw [← h.waiting_eq]; exact hwb)]
      have hlt : L.length - 1 < L.length :=
        (List.getElem?_eq_some.mp (by rw [← h.waiting_eq]; exact hwb)).1
      exact List.getElem?_eq_none (by omega)
  · intro host w current argv hwm hargc hnone
    subst hwm
    have hmem : (Event_Backend_wait_and_transfer host w e current argv).2.memory =
        queue_pop (queue_push (w.memory.store e
          { behind := none, infront := none, flags := EVENT_BACKEND_QUEUE_FIBER,
            fiber := current }) e) e := by
      simp [Event_Backend_wait_and_transfer, rb_ensure, wait_and_transfer,
        Event_Backend_fiber_transfer, Host.switch, wait_and_transfer_ensure, hnone]
    have hs := push_pop_restores (represents_store h hne
      { behind := none, infront := none, flags := EVENT_BACKEND_QUEUE_FIBER,
        fiber := current }) hne (fresh_store w.memory e EVENT_BACKEND_QUEUE_FIBER current)
    have hrep2 := queue_pop_represents (push_run_represents h hne EVENT_BACKEND_QUEUE_FIBER
      current) (by simp : e ∈ L ++ [e])
    rw [List.erase_append_right _ hne, List.erase_cons_head, List.append_nil] at hrep2
    rw [hmem]
    refine ⟨hs.1, ?_, hrep2⟩
    intro a hae
    rw [hs.2.1 a hae]
    simp [hae]

/-- Witness of C19: entry 3 pushed behind the queue `[1, 2]` and unlinked. -/
theorem push_pop_identity_witness :
    (queue_pop (queue_push two_entries 3) 3).backend = two_entries.backend ∧
    Represents (queue_pop (queue_push two_entries 3) 3) [1, 2] :=
  have r := push_pop_identity two_entries [1, 2] 3
    (queue_push_represents (L := [1])
      (queue_push_represents (L := []) represents_empty (by simp) ⟨rfl, rfl⟩)
      (by simp) ⟨rfl, rfl⟩)
    (by simp) ⟨rfl, rfl⟩
  ⟨r.1, r.2.2.2.1⟩

theorem misuse_queue_represents : Represents misuse_queue [2] := by
  have h1 : Represents (queue_pop (queue_push Memory.empty 1) 1) [] := by
    simpa using queue_pop_represents
      (queue_push_represents (L := []) represents_empty (by simp) ⟨rfl, rfl⟩)
      (by simp : 1 ∈ [] ++ [1])
  exact queue_push_represents (L := []) h1 (by simp) ⟨rfl, rfl⟩

/-- C15, as stated, fails: after push A (entry 1), unlink A, push B (entry 2)
the queue is the well-formed queue `[B]` and A is not a member; the second
unlink of A is carried out like any other and sets front and back to null, so
the front and back are not what they were. -/
theorem double_unlink_not_rejected :
    Represents misuse_queue [2] ∧ 1 ∉ [2] ∧
    misuse_queue.backend.ready = some 2 ∧ misuse_queue.backend.waiting = some 2 ∧
    (queue_pop misuse_queue 1).backend.ready = none ∧
    (queue_pop misuse_queue 1).backend.waiting = none ∧
    (queue_pop misuse_queue 1).backend ≠ misuse_queue.backend := by
  refine ⟨misuse_queue_represents, by decide, rfl, rfl, rfl, rfl, ?_⟩
  intro hc
  have : (queue_pop misuse_queue 1).backend.ready = misuse_queue.backend.ready := by rw [hc]
  exact absurd this (by decide)

/-- C15 (amended): `queue_pop` makes no membership test and has no failure
path.  On a well-formed queue `L`, for an entry `e` that is not a member and
whose links are null (never pushed, or unlinked while it was the only member),
`queue_pop` sets front and back to null and changes no entry; a non-empty
queue is then no longer the queue `L`. -/
theorem queue_pop_unchecked (m : Memory) (L : List Nat) (e : Nat)
    (h : Represents m L) (hne : e ∉ L) (hfresh : Fresh m e) :
    (queue_pop m e).backend.ready = none ∧
    (queue_pop m e).backend.waiting = none ∧
    (∀ a, (queue_pop m e).entry a = m.entry a) ∧
    (L ≠ [] → (queue_pop m e).backend ≠ m.backend ∧ ¬ Represents (queue_pop m e) L) := by
  have hready : (queue_pop m e).backend.ready = none := by
    rw [queue_pop_ready, hfresh.2, hfresh.1]; rfl
  have hwaiting : (queue_pop m e).backend.waiting = none := by
    rw [queue_pop_waiting, hfresh.1, hfresh.2]; rfl
  refine ⟨hready, hwaiting, ?_, ?_⟩
  · intro a
    apply entry_eq
    · rw [queue_pop_behind, hfresh.2]; simp
    · rw [queue_pop_infront, hfresh.1]; simp
    · rw [queue_pop_flags]
    · rw [queue_pop_fiber]
  · intro hL
    have hhead : L.head? ≠ none := by
      cases L with
      | nil => exact absurd rfl hL
      | cons x L => simp
    constructor
    · intro hc
      have : (queue_pop m e).backend.ready = m.backend.ready := by rw [hc]
      rw [hready, h.ready] at this
      exact hhead this.symm
    · intro hc
      have := hc.ready
      rw [hready] at this
      exact hhead this.symm

/-- Witness of C15 (amended): push A, unlink A, push B, unlink A again. -/
theorem queue_pop_unchecked_witness :
    (queue_pop misuse_queue 1).backend.ready = none ∧
    (queue_pop misuse_queue 1).backend.waiting = none ∧
    ¬ Represents (queue_pop misuse_queue 1) [2] :=
  have r := queue_pop_unchecked misuse_queue [2] 1 misuse_queue_represents (by decide)
    ⟨rfl, rfl⟩
  ⟨r.1, r.2.1, (r.2.2.2 (by simp)).2⟩

end EventBackend
